import Mathlib

/-!
Verification development for the sqlp struct-to-SQL mapping layer.

Strings are modelled as `List Char`; the helpers below are shallow embeddings
of the Go standard-library string operations the code uses
(`strings.Count`, `strings.Index`, `strings.Replace`, `strings.Contains`,
`strings.Repeat`, `strings.TrimPrefix`, `strings.Join`).
Heterogeneous `[]any` argument lists are modelled by the inductive `Arg`,
where `Arg.seq` stands for a value whose reflected kind is slice or array
and `Arg.scalar` for every other value.
-/

/-- Index of the first occurrence of `sub` in `s`, if any
(Go `strings.Index`, with `none` for -1). -/
def firstIdx? (s sub : List Char) : Option Nat :=
  if sub.isPrefixOf s then some 0
  else
    match s with
    | [] => none
    | _ :: rest => (firstIdx? rest sub).map (· + 1)

/-- Go `strings.Index` proper: -1 when absent. -/
def goIndexInt (s sub : List Char) : Int :=
  match firstIdx? s sub with
  | some n => (n : Int)
  | none => -1

/-- Go `strings.Contains`. -/
def containsSubstr (s sub : List Char) : Bool :=
  (firstIdx? s sub).isSome

/-- Helper for `countSubstr`: counts non-overlapping occurrences of the
non-empty substring `d :: ds`, scanning left to right; after a match the
next `skip` characters are already consumed by the match. -/
def countSubstrAux (d : Char) (ds : List Char) : Nat → List Char → Nat
  | _ + 1, [] => 0
  | n + 1, _ :: rest => countSubstrAux d ds n rest
  | 0, [] => 0
  | 0, c :: rest =>
    if (d :: ds).isPrefixOf (c :: rest)
    then 1 + countSubstrAux d ds ds.length rest
    else countSubstrAux d ds 0 rest

/-- Go `strings.Count`: non-overlapping occurrences; for an empty substring
Go returns the rune count plus one. -/
def countSubstr (s sub : List Char) : Nat :=
  match sub with
  | [] => s.length + 1
  | d :: ds => countSubstrAux d ds 0 s

/-- Go `strings.Replace(s, sub, r, 1)`: replace the first occurrence only. -/
def replaceFirst (sub r : List Char) : List Char → List Char
  | [] => if sub.isPrefixOf ([] : List Char) then r else []
  | c :: rest =>
    if sub.isPrefixOf (c :: rest) then r ++ (c :: rest).drop sub.length
    else c :: replaceFirst sub r rest

/-- Go `strings.Repeat(s, n)`. -/
def repeatList (s : List Char) : Nat → List Char
  | 0 => []
  | n + 1 => s ++ repeatList s n

/-- Go `strings.TrimPrefix(s, pre)`. -/
def trimLeading (pre s : List Char) : List Char :=
  if pre.isPrefixOf s then s.drop pre.length else s

/-- The IN-wildcard marker `InQueryReplace` from src/unnamed/part_000. -/
def inQueryReplace : List Char := "IN (*)".toList

/-- The column-wildcard marker `QueryReplace` from src/unnamed/part_001. -/
def queryReplace : List Char := "SELECT *".toList

/-- The single-character string "?" used by `strings.Count(query, "?")`. -/
def qmarkStr : List Char := "?".toList

/-- A Go `any` value as far as the IN-expansion can observe it:
`seq` is a value of reflected kind slice or array (with its elements),
`scalar` is anything else. -/
inductive Arg where
  | scalar : Nat → Arg
  | seq : List Arg → Arg

mutual

def argDecEq : (a b : Arg) → Decidable (a = b)
  | .scalar m, .scalar n =>
    match Nat.decEq m n with
    | isTrue h => isTrue (by rw [h])
    | isFalse h => isFalse (by intro hh; cases hh; exact h rfl)
  | .scalar _, .seq _ => isFalse (by intro h; cases h)
  | .seq _, .scalar _ => isFalse (by intro h; cases h)
  | .seq l, .seq m =>
    match argListDecEq l m with
    | isTrue h => isTrue (by rw [h])
    | isFalse h => isFalse (by intro hh; cases hh; exact h rfl)

def argListDecEq : (l m : List Arg) → Decidable (l = m)
  | [], [] => isTrue rfl
  | [], _ :: _ => isFalse (by intro h; cases h)
  | _ :: _, [] => isFalse (by intro h; cases h)
  | a :: l, b :: m =>
    match argDecEq a b, argListDecEq l m with
    | isTrue h1, isTrue h2 => isTrue (by rw [h1, h2])
    | isFalse h1, _ => isFalse (by intro hh; cases hh; exact h1 rfl)
    | _, isFalse h2 => isFalse (by intro hh; cases hh; exact h2 rfl)

end

instance : DecidableEq Arg := argDecEq

/-- Model of `sqlputil.ToAny`: flattens a slice/array into `[]any`.  On a non-sequence
value `reflect.Value.Len` panics, modelled by `none`. -/
def ToAny : Arg → Option (List Arg)
  | .seq l => some l
  | .scalar _ => none

/-- Model of `sqlputil.BuildPlaceholders` from src/sqlputil/sqlputil.go. -/
def BuildPlaceholders (amountOfValues : Nat) : List Char :=
  trimLeading ", ".toList (repeatList ", ?".toList amountOfValues)

/-- Model of `replaceWithFlatten` from src/unnamed/part_000 (append of three slices). -/
def replaceWithFlatten (first second : List Arg) (index : Nat) : List Arg :=
  first.take index ++ second ++ first.drop (index + 1)

/-- Outcome of `sqlpin.InQuery`: `ok` is a `(newQuery, newArgs, nil)` return,
`err` is a `("", nil, error)` return carrying the error message, and
`panicked` marks a run that panics inside (out-of-range index or
`reflect.Value.Len` on a non-sequence). -/
inductive InResult where
  | ok : List Char → List Arg → InResult
  | err : List Char → InResult
  | panicked : InResult
deriving DecidableEq

/-- Model of `sqlpin.InQuery` from src/unnamed/part_000 (the canonical variant). -/
def InQuery (query : List Char) (args : List Arg) : InResult :=
  if countSubstr query inQueryReplace > 1 then
    .err "sqlp: only one in query is supported".toList
  else if countSubstr query qmarkStr + countSubstr query inQueryReplace = 1 then
    match args with
    | [] => .ok (replaceFirst inQueryReplace "= FALSE".toList query) []
    | a :: rest =>
      match a with
      | .seq l =>
        if l.length = 0 then
          .ok (replaceFirst inQueryReplace "= FALSE".toList query) []
        else
          .ok (replaceFirst inQueryReplace
                ("IN (".toList ++ BuildPlaceholders l.length ++ ")".toList) query) l
      | .scalar v =>
        .ok (replaceFirst inQueryReplace
              ("IN (".toList ++ BuildPlaceholders (Arg.scalar v :: rest).length ++ ")".toList)
              query)
            (Arg.scalar v :: rest)
  else
    let index := goIndexInt query inQueryReplace + 1
    let argIndex := countSubstr (query.take index.toNat) qmarkStr
    if args.length ≤ argIndex then
      .err "sqlp: not enough arguments for in query".toList
    else
      match args[argIndex]? with
      | none => .panicked
      | some a =>
        match ToAny a with
        | none => .panicked
        | some argList =>
          if argList.length = 0 then
            .ok (replaceFirst inQueryReplace "= FALSE".toList query)
                (args.take argIndex ++ args.drop (argIndex + 1))
          else
            .ok (replaceFirst inQueryReplace
                  ("IN (".toList ++ BuildPlaceholders argList.length ++ ")".toList) query)
                (replaceWithFlatten args argList argIndex)

/-- Spec-side placeholder list: N question marks separated by ", ". -/
def specPlaceholders : Nat → List Char
  | 0 => []
  | 1 => ['?']
  | n + 2 => ['?'] ++ ", ".toList ++ specPlaceholders (n + 1)

/-- Observable outcome of `QueryBasicDb` / `QueryBasicRowDb` up to the point
where the external database is invoked: `earlyEmpty` is the immediate
`return` with zero-value result and nil error, `dbQuery` records the query
and arguments handed to `db.Query`. -/
inductive BasicOutcome where
  | earlyEmpty : BasicOutcome
  | inErr : List Char → BasicOutcome
  | inPanic : BasicOutcome
  | dbQuery : List Char → List Arg → BasicOutcome
deriving DecidableEq

/-- Shared IN-handling prologue of the basic query functions. -/
def basicPrologue (query : List Char) (args : List Arg) : BasicOutcome :=
  if containsSubstr query inQueryReplace then
    if args.length = 0 then .earlyEmpty
    else
      match InQuery query args with
      | .ok q a => .dbQuery q a
      | .err m => .inErr m
      | .panicked => .inPanic
  else .dbQuery query args

/-- Model of `QueryBasicDb` from src/unnamed/part_001 lines 160-190, up to the
`db.Query` call (row iteration and scanning are external). -/
def QueryBasicDb (query : List Char) (args : List Arg) : BasicOutcome :=
  basicPrologue query args

/-- Model of `QueryBasicRowDb` from src/unnamed/part_001 lines 192-223, up to the
`db.Query` call; its body duplicates the same prologue.  The
`sql.ErrNoRows` branch lies beyond the `dbQuery` outcome, so an
`earlyEmpty` result in particular never reports a no-rows error. -/
def QueryBasicRowDb (query : List Char) (args : List Arg) : BasicOutcome :=
  basicPrologue query args

/-- Observable outcome of `doQueryDb` from src/unnamed/part_001 lines
304-326: `errNotSet` is the `ErrNotSet` return for a nil handle,
`earlyEmpty` the immediate `return` with nil rows and nil error. -/
inductive DoQueryOutcome where
  | errNotSet : DoQueryOutcome
  | earlyEmpty : DoQueryOutcome
  | inErr : List Char → DoQueryOutcome
  | inPanic : DoQueryOutcome
  | dbQuery : List Char → List Arg → DoQueryOutcome
deriving DecidableEq

/-- Model of `doQueryDb` from src/unnamed/part_001 lines 304-326.  `dbSet` models
whether the `*sql.DB` handle is non-nil, `colsStr` the column list computed
by `columns[T]()` that is substituted for the `SELECT *` marker. -/
def doQueryDb (dbSet : Bool) (colsStr : List Char) (query : List Char)
    (args : List Arg) : DoQueryOutcome :=
  if !dbSet then .errNotSet
  else
    let q1 := replaceFirst queryReplace ("SELECT ".toList ++ colsStr) query
    if containsSubstr q1 inQueryReplace then
      if args.length = 0 then .earlyEmpty
      else
        match InQuery q1 args with
        | .ok q a => .dbQuery q a
        | .err m => .inErr m
        | .panicked => .inPanic
    else .dbQuery q1 args

/-- Model of the `ToSnakeCase` body loop from src/unnamed/part_002 lines 340-358, after
the first character: `prevUpper` is the upper-case flag of the previously
written character. -/
def snakeAux (prevUpper : Bool) : List Char → List Char
  | [] => []
  | c :: rest =>
    (if ('A' ≤ c ∧ c ≤ 'Z') ∧ ¬ prevUpper then ['_'] else []) ++
      c :: snakeAux (decide ('A' ≤ c ∧ c ≤ 'Z')) rest

/-- ASCII lower-casing of one character, the effect of `strings.ToLower`
on the ASCII range the source manipulates. -/
def lowerChar (c : Char) : Char :=
  if 'A' ≤ c ∧ c ≤ 'Z' then Char.ofNat (c.toNat + 32) else c

/-- Model of `ToSnakeCase` from src/unnamed/part_002 lines 340-358: the `i > 0`
guard means the first character never receives an underscore. -/
def ToSnakeCase (src : List Char) : List Char :=
  (match src with
   | [] => []
   | c :: rest => c :: snakeAux (decide ('A' ≤ c ∧ c ≤ 'Z')) rest).map lowerChar

/-- Decidable lexicographic order on character lists, the order
`sort.Strings` sorts by (byte order and character order agree on the ASCII
names involved). -/
def listLe : List Char → List Char → Bool
  | [], _ => true
  | _ :: _, [] => false
  | a :: as, b :: bs => if a = b then listLe as bs else decide (a.toNat < b.toNat)

/-- The sorting relation used throughout: `listLe` as a proposition. -/
def strLe (a b : List Char) : Prop := listLe a b = true

instance : DecidableRel strLe := fun a b => by unfold strLe; infer_instance

/-- Go `sort.Strings` modelled by insertion sort under `strLe`. -/
def sortStrings (l : List (List Char)) : List (List Char) :=
  List.insertionSort strLe l

mutual

/-- A Go record type: its `reflect.Type.String()` name and its fields. -/
inductive GoType where
  | mk : List Char → List GoField → GoType

/-- A Go struct field as the reflection code observes it: name, `sql` tag
value (empty when absent), presence of the `sql-auto` (primary key) and
`sql-ign` tags, unexported flag (`PkgPath != ""`), the embedded struct type
when the field is anonymous of struct kind, and whether a pointer to that
type implements `Scanner`. -/
inductive GoField where
  | mk : List Char → List Char → Bool → Bool → Bool → Option GoType → Bool → GoField

end

def GoField.fname : GoField → List Char | .mk n _ _ _ _ _ _ => n

def GoField.tag : GoField → List Char | .mk _ t _ _ _ _ _ => t

def GoField.isPk : GoField → Bool | .mk _ _ p _ _ _ _ => p

def GoField.isIgn : GoField → Bool | .mk _ _ _ g _ _ _ => g

def GoField.unexp : GoField → Bool | .mk _ _ _ _ u _ _ => u

def GoType.tyName : GoType → List Char | .mk n _ => n

def GoType.fields : GoType → List GoField | .mk _ fs => fs

/-- The `fieldInfo` map: the map from column name to field index path, modelled as
an association list with at most one entry per key. -/
abbrev FieldInfo := List (List Char × List Nat)

/-- Go map assignment `finfo[k] = v`: replace the entry for `k`, or append
a new one. -/
def fiInsert (k : List Char) (v : List Nat) : FieldInfo → FieldInfo
  | [] => [(k, v)]
  | e :: rest => if e.1 = k then (k, v) :: rest else e :: fiInsert k v rest

/-- Go map lookup `finfo[k]`. -/
def fiLookup (k : List Char) : FieldInfo → Option (List Nat)
  | [] => none
  | e :: rest => if e.1 = k then some e.2 else fiLookup k rest

/-- Key set of a `fieldInfo` (what `for f := range fields` iterates over). -/
def fiKeys (m : FieldInfo) : List (List Char) := m.map Prod.fst

/-- The loop `for k, v := range getFieldInfo(f.Type, ...)` of the embedded
case: every nested entry is stored under its key with the outer index `i`
consed onto its path. -/
def mergeEmb (i : Nat) : FieldInfo → FieldInfo → FieldInfo
  | [], acc => acc
  | (k, v) :: rest, acc => mergeEmb i rest (fiInsert k (i :: v) acc)

/-- The skip condition of `getFieldInfo`:
`f.PkgPath != "" || tag == "-" || (!includePk && isPk) || (applyIgnore && shouldIgnore)`. -/
def skipField (incPk appIgn : Bool) (f : GoField) : Bool :=
  f.unexp || f.tag = "-".toList || (!incPk && f.isPk) || (appIgn && f.isIgn)

mutual

/-- Cache-free computation of `getFieldInfo` from src/unnamed/part_001
lines 377-427 (the body run on a cache miss), parameterised by the global
`NameMapper` `nm`. -/
def getFieldInfoPure (nm : List Char → List Char) (incPk appIgn : Bool) :
    GoType → FieldInfo
  | .mk _ fs => buildFields nm incPk appIgn fs 0 []

/-- The field loop of `getFieldInfo`, carrying the current field index and
the map built so far. -/
def buildFields (nm : List Char → List Char) (incPk appIgn : Bool) :
    List GoField → Nat → FieldInfo → FieldInfo
  | [], _, acc => acc
  | f :: rest, i, acc =>
    if skipField incPk appIgn f then buildFields nm incPk appIgn rest (i + 1) acc
    else
      match f with
      | .mk _ _ _ _ _ (some sub) false =>
        buildFields nm incPk appIgn rest (i + 1)
          (mergeEmb i (getFieldInfoPure nm incPk appIgn sub) acc)
      | _ =>
        buildFields nm incPk appIgn rest (i + 1)
          (fiInsert (nm (if f.tag = [] then f.fname else f.tag)) [i] acc)

end

/-- Model of `getColumns` from src/unnamed/part_001 lines 472-486: key set of the
resolved metadata, sorted with `sort.Strings`.  The universally quantified
iteration-order theorem below covers the arbitrary order in which a Go map
range would deliver the names. -/
def getColumns (nm : List Char → List Char) (incPk appIgn : Bool) (t : GoType) :
    List (List Char) :=
  sortStrings (fiKeys (getFieldInfoPure nm incPk appIgn t))

/-- Model of `columns` from src/unnamed/part_001 lines 559-563. -/
def columns (nm : List Char → List Char) (t : GoType) : List Char :=
  List.intercalate ", ".toList (getColumns nm true false t)

/-- The loop of `getPkFieldInfo` that collects `sql-auto`-tagged fields. -/
def pkBuild : List GoField → Nat → FieldInfo → FieldInfo
  | [], _, acc => acc
  | f :: rest, i, acc =>
    if f.isPk then pkBuild rest (i + 1) (fiInsert f.fname [i] acc)
    else pkBuild rest (i + 1) acc

/-- Number of fields carrying the primary-key marker. -/
def pkCount (t : GoType) : Nat := (t.fields.filter (·.isPk)).length

/-- The trailing `for col, idx := range finfo { return col, idx, nil }`
followed by `return "", nil, nil`. -/
def pkReturn (finfo : FieldInfo) : Except (List Char) (List Char × List Nat) :=
  match finfo with
  | (k, v) :: _ => .ok (k, v)
  | [] => .ok ([], [])

/-- The process-wide `fieldInfoCache`, keyed by strings as in the source. -/
abbrev Cache := List (List Char × FieldInfo)

def cacheLookup (k : List Char) : Cache → Option FieldInfo
  | [] => none
  | e :: rest => if e.1 = k then some e.2 else cacheLookup k rest

def cacheInsert (k : List Char) (v : FieldInfo) : Cache → Cache
  | [] => [(k, v)]
  | e :: rest => if e.1 = k then (k, v) :: rest else e :: cacheInsert k v rest

/-- Cache key `fmt.Sprintf("%s%s%t%t", typ.String(), TagName, includePk, applyIgnore)`. -/
def fiCacheKey (t : GoType) (incPk appIgn : Bool) : List Char :=
  t.tyName ++ "sql".toList ++ (if incPk then "true".toList else "false".toList) ++
    (if appIgn then "true".toList else "false".toList)

/-- Cache key `typ.String() + AutoGenTagName` of `getPkFieldInfo`. -/
def pkCacheKey (t : GoType) : List Char := t.tyName ++ "sql-auto".toList

/-- Model of `getFieldInfo` from src/unnamed/part_001 lines 377-427 with the global
cache made explicit: read under the key; on a miss compute and store.
(The recursive calls for embedded sub-records consult the cache in the
source as well; every cache entry is only ever the resolution of its own
key, so the returned value is the pure resolution either way.) -/
def getFieldInfo (nm : List Char → List Char) (cache : Cache) (t : GoType)
    (incPk appIgn : Bool) : FieldInfo × Cache :=
  match cacheLookup (fiCacheKey t incPk appIgn) cache with
  | some fi => (fi, cache)
  | none =>
    let fi := getFieldInfoPure nm incPk appIgn t
    (fi, cacheInsert (fiCacheKey t incPk appIgn) fi cache)

/-- Model of `getPkFieldInfo` from src/unnamed/part_001 lines 343-373 with the
global cache made explicit.  Note the source stores nothing back into
`fieldInfoCache` on this path. -/
def getPkFieldInfo (cache : Cache) (t : GoType) :
    Except (List Char) (List Char × List Nat) × Cache :=
  match cacheLookup (pkCacheKey t) cache with
  | some finfo => (pkReturn finfo, cache)
  | none =>
    let finfo := pkBuild t.fields 0 []
    if finfo.length ≠ 1 then
      (.error ("sqlp: expected exactly one primary key; got ".toList ++
        (Nat.repr finfo.length).toList), cache)
    else (pkReturn finfo, cache)

/-- A runtime struct value: a scalar cell or a struct of field values.
Field index paths (`FieldByIndex`) address into this tree. -/
inductive Val where
  | prim : Nat → Val
  | strukt : List Val → Val

/-- Model of `reflect.Value.FieldByIndex` followed by reading the value: follow an
index path through nested struct values. -/
def getPath : Val → List Nat → Option Val
  | v, [] => some v
  | .prim _, _ :: _ => none
  | .strukt fs, i :: p =>
    match fs[i]? with
    | some v => getPath v p
    | none => none
termination_by _ p => p.length

mutual

/-- Writing through the address `FieldByIndex(path).Addr()`: replace the
value at the index path, leaving everything else unchanged (no-op on an
invalid path, which never arises for paths of resolved metadata). -/
def setPath : Val → List Nat → Val → Val
  | _, [], w => w
  | .prim n, _ :: _, _ => .prim n
  | .strukt fs, i :: p, w => .strukt (setInList fs i p w)
termination_by _ p _ => (p.length, 0)

/-- Replace position `i` of a field list by its update along path `p`. -/
def setInList : List Val → Nat → List Nat → Val → List Val
  | [], _, _, _ => []
  | v :: rest, 0, p, w => setPath v p w :: rest
  | v :: rest, n + 1, p, w => v :: setInList rest n p w
termination_by l _ p _ => (p.length, l.length + 1)

end

/-- The target list `ptrsToScanInto` built by `doScan`: for each reported
column, the mapped field path (`elem.FieldByIndex(idx).Addr()`) or `none`
for the `&sql.RawBytes{}` discard sink. -/
def buildTargets (nm : List Char → List Char) (fInfo : FieldInfo) :
    List (List Char) → List (Option (List Nat))
  | [] => []
  | cName :: rest => fiLookup (nm cName) fInfo :: buildTargets nm fInfo rest

/-- The effect of the single positional `rows.Scan(ptrsToScanInto...)` call:
write the j-th row value through the j-th target, discarding values whose
target is the byte sink. -/
def applyScan : Val → List (Option (List Nat)) → List Val → Val
  | dest, [], _ => dest
  | dest, _ :: _, [] => dest
  | dest, t :: ts, v :: vs =>
    applyScan (match t with | some p => setPath dest p v | none => dest) ts vs

/-- Model of `doScan` from src/unnamed/part_001 lines 429-470: check that the
destination is (a pointer to) a struct, resolve metadata with
`includePk = true, applyIgnore = false`, build one scan target per reported
cursor column and perform one positional scan.  `cols` models the
`rows.Columns()` result and `vals` the values the driver delivers to that
single `rows.Scan` call. -/
def doScan (nm : List Char → List Char) (t : GoType) (dest : Val)
    (cols : List (List Char)) (vals : List Val) : Except (List Char) Val :=
  match dest with
  | .prim _ => .error "dest must be pointer to struct".toList
  | .strukt _ =>
    .ok (applyScan dest (buildTargets nm (getFieldInfoPure nm true false t) cols) vals)

lemma isPrefixOf_exists {s t : List Char} (h : s.isPrefixOf t = true) :
    ∃ u, s ++ u = t := List.isPrefixOf_iff_prefix.mp h

lemma countSubstr_single (c : Char) (s : List Char) :
    countSubstr s [c] = s.count c := by
  induction s with
  | nil => rfl
  | cons x rest ih =>
    simp only [countSubstr] at ih ⊢
    simp only [countSubstrAux, List.isPrefixOf, List.length_nil, List.count_cons]
    by_cases hx : c = x
    · subst hx
      simp [ih]
      omega
    · have hbx : (c == x) = false := by simp [hx]
      simp [hbx, ih, Ne.symm hx]

lemma firstIdx?_le {s sub : List Char} {p : Nat} (h : firstIdx? s sub = some p) :
    p ≤ s.length := by
  induction s generalizing p with
  | nil =>
    unfold firstIdx? at h
    split at h
    · simp at h; omega
    · simp at h
  | cons c rest ih =>
    unfold firstIdx? at h
    split at h
    · simp at h; omega
    · simp only [Option.map_eq_some'] at h
      obtain ⟨q, hq, rfl⟩ := h
      have := ih hq
      simp [List.length_cons]
      omega

lemma firstIdx?_decomp {s sub : List Char} {p : Nat} (h : firstIdx? s sub = some p) :
    s = s.take p ++ sub ++ s.drop (p + sub.length) := by
  induction s generalizing p with
  | nil =>
    unfold firstIdx? at h
    split at h
    · simp at h
      subst h
      rename_i hpre
      have ⟨u, hu⟩ := isPrefixOf_exists hpre
      simp at hu
      simp [← hu.1]
    · simp at h
  | cons c rest ih =>
    unfold firstIdx? at h
    split at h
    · simp at h
      subst h
      rename_i hpre
      have ⟨u, hu⟩ := isPrefixOf_exists hpre
      simp [← hu]
    · simp only [Option.map_eq_some'] at h
      obtain ⟨q, hq, rfl⟩ := h
      have hrw : q + 1 + sub.length = (q + sub.length) + 1 := by omega
      calc c :: rest
          = c :: (rest.take q ++ sub ++ rest.drop (q + sub.length)) := by rw [← ih hq]
        _ = (c :: rest).take (q + 1) ++ sub ++ (c :: rest).drop (q + 1 + sub.length) := by
            rw [hrw, List.drop_succ_cons, List.take_succ_cons]
            simp

lemma replaceFirst_decomp {s sub : List Char} {p : Nat} (r : List Char)
    (h : firstIdx? s sub = some p) :
    replaceFirst sub r s = s.take p ++ r ++ s.drop (p + sub.length) := by
  induction s generalizing p with
  | nil =>
    unfold firstIdx? at h
    split at h
    · simp at h
      subst h
      rename_i hpre
      have ⟨u, hu⟩ := isPrefixOf_exists hpre
      simp at hu
      simp [replaceFirst, hu]
    · simp at h
  | cons c rest ih =>
    unfold firstIdx? at h
    split at h
    · simp at h
      subst h
      rename_i hpre
      have ⟨u, hu⟩ := isPrefixOf_exists hpre
      unfold replaceFirst
      rw [if_pos hpre]
      have hd : (c :: rest).drop sub.length = u := by
        rw [← hu]
        simp
      rw [hd]
      have hd0 : (c :: rest).drop (0 + sub.length) = u := by
        rw [← hu]
        simp
      rw [hd0]
      simp
    · rename_i hpre
      simp only [Option.map_eq_some'] at h
      obtain ⟨q, hq, rfl⟩ := h
      unfold replaceFirst
      rw [if_neg (by simp [hpre])]
      rw [ih hq]
      have hrw : q + 1 + sub.length = (q + sub.length) + 1 := by omega
      rw [hrw, List.drop_succ_cons, List.take_succ_cons]
      simp

lemma replaceFirst_of_none {s sub : List Char} (r : List Char)
    (h : firstIdx? s sub = none) : replaceFirst sub r s = s := by
  induction s with
  | nil =>
    unfold firstIdx? at h
    split at h
    · simp at h
    · rename_i hpre
      unfold replaceFirst
      rw [if_neg (by simp [hpre])]
  | cons c rest ih =>
    unfold firstIdx? at h
    split at h
    · simp at h
    · rename_i hpre
      simp only [Option.map_eq_none'] at h
      unfold replaceFirst
      rw [if_neg (by simp [hpre]), ih h]

lemma qmarkStr_eq : qmarkStr = ['?'] := rfl

lemma specPlaceholders_succ (n : Nat) :
    specPlaceholders (n + 1) = '?' :: repeatList ", ?".toList n := by
  induction n with
  | zero => rfl
  | succ m ih =>
    show specPlaceholders (m + 2) = _
    unfold specPlaceholders
    rw [ih]
    rfl

lemma BuildPlaceholders_eq_spec (n : Nat) :
    BuildPlaceholders n = specPlaceholders n := by
  cases n with
  | zero => rfl
  | succ m =>
    rw [specPlaceholders_succ]
    show trimLeading ", ".toList (", ?".toList ++ repeatList ", ?".toList m) = _
    unfold trimLeading
    have hpre : ", ".toList.isPrefixOf (", ?".toList ++ repeatList ", ?".toList m) = true :=
      List.isPrefixOf_iff_prefix.mpr ⟨'?' :: repeatList ", ?".toList m, rfl⟩
    simp only [hpre, if_true]
    rfl

lemma contains_of_append (x sub y : List Char) :
    containsSubstr (x ++ sub ++ y) sub = true := by
  induction x with
  | nil =>
    simp only [containsSubstr, List.nil_append]
    unfold firstIdx?
    have hp : sub.isPrefixOf (sub ++ y) = true :=
      List.isPrefixOf_iff_prefix.mpr ⟨y, rfl⟩
    rw [if_pos hp]
    rfl
  | cons c rest ih =>
    simp only [containsSubstr] at ih ⊢
    unfold firstIdx?
    split
    · rfl
    · simpa using ih

lemma contains_exists {s sub : List Char} (h : containsSubstr s sub = true) :
    ∃ x y, s = x ++ sub ++ y := by
  simp only [containsSubstr, Option.isSome_iff_exists] at h
  obtain ⟨p, hp⟩ := h
  exact ⟨s.take p, s.drop (p + sub.length), firstIdx?_decomp hp⟩

lemma take_succ_at_marker {q : List Char} {p : Nat} {m : List Char} {c : Char}
    {ms : List Char} (hm : m = c :: ms) (hfi : firstIdx? q m = some p) :
    q.take (p + 1) = q.take p ++ [c] := by
  have hd := firstIdx?_decomp hfi
  have hlen : (q.take p).length = p := by
    simp [List.length_take]
    exact firstIdx?_le hfi
  rw [List.append_assoc] at hd
  calc q.take (p + 1) = (q.take p ++ (m ++ q.drop (p + m.length))).take (p + 1) := by
        rw [← hd]
    _ = (q.take p).take (p + 1) ++ (m ++ q.drop (p + m.length)).take (p + 1 - (q.take p).length) := by
        rw [List.take_append_eq_append_take]
    _ = q.take p ++ [c] := by
        rw [hlen, List.take_of_length_le (by omega)]
        simp [hm]

lemma InQuery_argIndex {q : List Char} {p : Nat}
    (hfi : firstIdx? q inQueryReplace = some p) :
    countSubstr (q.take ((goIndexInt q inQueryReplace + 1).toNat)) qmarkStr
      = (q.take p).count '?' := by
  rw [qmarkStr_eq, countSubstr_single]
  have hidx : goIndexInt q inQueryReplace = (p : Int) := by
    simp [goIndexInt, hfi]
  rw [hidx]
  have : ((p : Int) + 1).toNat = p + 1 := by omega
  rw [this]
  rw [take_succ_at_marker (show inQueryReplace = 'I' :: "N (*)".toList from rfl) hfi]
  simp

/-- Claim C3: a template containing the IN-marker more than once makes
`InQuery` fail with the usage error ("only one in query is supported")
before any rewriting; the error return carries an empty rewritten template
and no arguments (the `("", nil, error)` Go return, modelled by `.err`). -/
theorem claim_C3_only_one_marker (q : List Char) (args : List Arg)
    (h : 2 ≤ countSubstr q inQueryReplace) :
    InQuery q args = .err "sqlp: only one in query is supported".toList := by
  unfold InQuery
  rw [if_pos (by omega)]

theorem claim_C3_witness :
    InQuery "x IN (*) y IN (*)".toList [Arg.scalar 1] =
      .err "sqlp: only one in query is supported".toList :=
  claim_C3_only_one_marker "x IN (*) y IN (*)".toList [Arg.scalar 1] (by decide)

/-- Claim C2: when the IN-marker is the only placeholder-consuming element
(one marker, no ordinary question marks), `InQuery` maps an empty argument
list or a sole empty sequence to "= FALSE" with no arguments, a sole
non-empty sequence of length N to "IN (" + N placeholders + ")" with the
sequence elements as arguments, and a scalar-headed argument list to
"IN (" + len(args) placeholders + ")" with the arguments unchanged. -/
theorem claim_C2_sole_consumer {q : List Char} {p : Nat}
    (hone : countSubstr q inQueryReplace = 1)
    (hq0 : q.count '?' = 0)
    (hfi : firstIdx? q inQueryReplace = some p) :
    (InQuery q [] =
      .ok (q.take p ++ "= FALSE".toList ++ q.drop (p + inQueryReplace.length)) []) ∧
    (InQuery q [Arg.seq []] =
      .ok (q.take p ++ "= FALSE".toList ++ q.drop (p + inQueryReplace.length)) []) ∧
    (∀ l, l ≠ [] → InQuery q [Arg.seq l] =
      .ok (q.take p ++ ("IN (".toList ++ specPlaceholders l.length ++ ")".toList) ++
        q.drop (p + inQueryReplace.length)) l) ∧
    (∀ v rest, InQuery q (Arg.scalar v :: rest) =
      .ok (q.take p ++
          ("IN (".toList ++ specPlaceholders (Arg.scalar v :: rest).length ++ ")".toList) ++
        q.drop (p + inQueryReplace.length)) (Arg.scalar v :: rest)) := by
  have hrepl : ∀ r : List Char, firstIdx? q inQueryReplace = some p →
      replaceFirst inQueryReplace r q =
        q.take p ++ r ++ q.drop (p + inQueryReplace.length) :=
    fun r h => replaceFirst_decomp r h
  refine ⟨?_, ?_, ?_, ?_⟩
  · unfold InQuery
    simp only [hone, qmarkStr_eq, countSubstr_single, hq0]
    norm_num
    rw [hrepl _ hfi]
    simp
  · unfold InQuery
    simp only [hone, qmarkStr_eq, countSubstr_single, hq0]
    norm_num
    rw [hrepl _ hfi]
    simp
  · intro l hl
    unfold InQuery
    simp only [hone, qmarkStr_eq, countSubstr_single, hq0]
    norm_num
    rw [if_neg (by simpa using hl)]
    rw [hrepl _ hfi, BuildPlaceholders_eq_spec]
    simp
  · intro v rest
    unfold InQuery
    simp only [hone, qmarkStr_eq, countSubstr_single, hq0]
    norm_num
    rw [hrepl _ hfi, BuildPlaceholders_eq_spec]
    simp

theorem claim_C2_witness :
    (InQuery "DELETE FROM t WHERE id IN (*)".toList [] =
      .ok "DELETE FROM t WHERE id = FALSE".toList []) ∧
    (InQuery "DELETE FROM t WHERE id IN (*)".toList [Arg.seq []] =
      .ok "DELETE FROM t WHERE id = FALSE".toList []) ∧
    (InQuery "DELETE FROM t WHERE id IN (*)".toList [Arg.seq [Arg.scalar 1, Arg.scalar 2]] =
      .ok "DELETE FROM t WHERE id IN (?, ?)".toList [Arg.scalar 1, Arg.scalar 2]) ∧
    (InQuery "DELETE FROM t WHERE id IN (*)".toList [Arg.scalar 7, Arg.scalar 8] =
      .ok "DELETE FROM t WHERE id IN (?, ?)".toList [Arg.scalar 7, Arg.scalar 8]) := by
  have h := claim_C2_sole_consumer (q := "DELETE FROM t WHERE id IN (*)".toList)
    (p := 23) (by decide) (by decide) (by decide)
  refine ⟨?_, ?_, ?_, ?_⟩
  · rw [h.1]; decide
  · rw [h.2.1]; decide
  · rw [h.2.2.1 [Arg.scalar 1, Arg.scalar 2] (by decide)]; decide
  · rw [h.2.2.2 7 [Arg.scalar 8]]; decide

/-- Claim C1: with exactly one IN-marker and at least one ordinary question
mark, `InQuery` addresses the argument at `argIndex` (the count of question
marks strictly before the marker): an empty sequence there turns the marker
into "= FALSE" and is spliced out of the argument list; a non-empty
sequence of length N turns the marker into "IN (" + N placeholders + ")"
and is replaced in place by its elements, the surrounding arguments keeping
their relative order. -/
theorem claim_C1_flatten_at_index {q : List Char} {p : Nat} (args : List Arg)
    (hone : countSubstr q inQueryReplace = 1)
    (hqm : 1 ≤ q.count '?')
    (hfi : firstIdx? q inQueryReplace = some p) :
    (args[(q.take p).count '?']? = some (Arg.seq []) →
      InQuery q args =
        .ok (q.take p ++ "= FALSE".toList ++ q.drop (p + inQueryReplace.length))
          (args.take ((q.take p).count '?') ++ args.drop ((q.take p).count '?' + 1))) ∧
    (∀ l, l ≠ [] → args[(q.take p).count '?']? = some (Arg.seq l) →
      InQuery q args =
        .ok (q.take p ++ ("IN (".toList ++ specPlaceholders l.length ++ ")".toList) ++
            q.drop (p + inQueryReplace.length))
          (args.take ((q.take p).count '?') ++ l ++ args.drop ((q.take p).count '?' + 1))) := by
  have hsum : ¬ (countSubstr q qmarkStr + countSubstr q inQueryReplace = 1) := by
    rw [qmarkStr_eq, countSubstr_single, hone]
    omega
  constructor
  · intro hget
    have hlt : (q.take p).count '?' < args.length := by
      have := List.getElem?_eq_some.mp hget
      exact this.1
    unfold InQuery
    rw [if_neg (by omega), if_neg hsum]
    simp only [InQuery_argIndex hfi]
    rw [if_neg (by omega), hget]
    simp only [ToAny]
    norm_num
    rw [replaceFirst_decomp _ hfi]
    simp
  · intro l hl hget
    have hlt : (q.take p).count '?' < args.length := by
      have := List.getElem?_eq_some.mp hget
      exact this.1
    unfold InQuery
    rw [if_neg (by omega), if_neg hsum]
    simp only [InQuery_argIndex hfi]
    rw [if_neg (by omega), hget]
    simp only [ToAny]
    rw [if_neg (by simpa using hl)]
    rw [replaceFirst_decomp _ hfi, BuildPlaceholders_eq_spec]
    simp [replaceWithFlatten]

theorem claim_C1_witness :
    (InQuery "SELECT a FROM t WHERE x=? AND y IN (*)".toList
        [Arg.scalar 5, Arg.seq []] =
      .ok "SELECT a FROM t WHERE x=? AND y = FALSE".toList [Arg.scalar 5]) ∧
    (InQuery "SELECT a FROM t WHERE x=? AND y IN (*)".toList
        [Arg.scalar 5, Arg.seq [Arg.scalar 1, Arg.scalar 2]] =
      .ok "SELECT a FROM t WHERE x=? AND y IN (?, ?)".toList
        [Arg.scalar 5, Arg.scalar 1, Arg.scalar 2]) := by
  constructor
  · have h := (claim_C1_flatten_at_index (q := "SELECT a FROM t WHERE x=? AND y IN (*)".toList)
      (p := 32) [Arg.scalar 5, Arg.seq []] (by decide) (by decide) (by decide)).1 (by decide)
    rw [h]; decide
  · have h := (claim_C1_flatten_at_index (q := "SELECT a FROM t WHERE x=? AND y IN (*)".toList)
      (p := 32) [Arg.scalar 5, Arg.seq [Arg.scalar 1, Arg.scalar 2]] (by decide) (by decide)
      (by decide)).2 [Arg.scalar 1, Arg.scalar 2] (by decide) (by decide)
    rw [h]; decide

/-- Claim C7: with exactly one IN-marker and at least one ordinary question
mark, `InQuery` computes `argIndex` as the number of question marks
strictly before the marker and fails with the arity error ("not enough
arguments for in query", returned as `("", nil, error)`) precisely when
fewer than `argIndex + 1` arguments are supplied. -/
theorem claim_C7_arity_error {q : List Char} {p : Nat} (args : List Arg)
    (hone : countSubstr q inQueryReplace = 1)
    (hqm : 1 ≤ q.count '?')
    (hfi : firstIdx? q inQueryReplace = some p) :
    InQuery q args = .err "sqlp: not enough arguments for in query".toList ↔
      args.length < (q.take p).count '?' + 1 := by
  have hsum : ¬ (countSubstr q qmarkStr + countSubstr q inQueryReplace = 1) := by
    rw [qmarkStr_eq, countSubstr_single, hone]
    omega
  unfold InQuery
  rw [if_neg (by omega), if_neg hsum]
  simp only [InQuery_argIndex hfi]
  constructor
  · intro h
    by_contra hc
    push_neg at hc
    rw [if_neg (by omega)] at h
    cases hAI : args[(q.take p).count '?']? with
    | none =>
      rw [hAI] at h
      simp at h
    | some a =>
      rw [hAI] at h
      cases a with
      | scalar v => simp [ToAny] at h
      | seq l =>
        simp only [ToAny] at h
        by_cases hl : l.length = 0
        · rw [if_pos hl] at h
          simp at h
        · rw [if_neg hl] at h
          simp at h
  · intro h
    rw [if_pos (by omega)]

theorem claim_C7_witness :
    InQuery "SELECT a FROM t WHERE x=? AND y IN (*)".toList [Arg.scalar 5] =
      .err "sqlp: not enough arguments for in query".toList :=
  (claim_C7_arity_error (q := "SELECT a FROM t WHERE x=? AND y IN (*)".toList)
    (p := 32) [Arg.scalar 5] (by decide) (by decide) (by decide)).mpr (by decide)

/-- Spec-side snake-case insertion: scanning left to right, an underscore
is emitted before each upper-case character that is not the first character
and whose immediately preceding character was not itself upper-case.
`prev` is the preceding character of the original string. -/
def snakeSpecIns : Char → List Char → List Char
  | _, [] => []
  | prev, c :: rest =>
    (if ('A' ≤ c ∧ c ≤ 'Z') ∧ ¬ ('A' ≤ prev ∧ prev ≤ 'Z') then ['_'] else []) ++
      c :: snakeSpecIns c rest

/-- Spec-side snake-case transform: insert the underscores, then lower-case
the entire result. -/
def snakeSpec (src : List Char) : List Char :=
  (match src with
   | [] => []
   | c :: rest => c :: snakeSpecIns c rest).map lowerChar

lemma snakeAux_eq_spec (prev : Char) (rest : List Char) :
    snakeAux (decide ('A' ≤ prev ∧ prev ≤ 'Z')) rest = snakeSpecIns prev rest := by
  induction rest generalizing prev with
  | nil => rfl
  | cons c r ih =>
    simp only [snakeAux, snakeSpecIns, ih]
    congr 1
    by_cases hp : ('A' ≤ prev ∧ prev ≤ 'Z')
    · simp [hp]
    · simp [hp]

/-- Claim C9: `ToSnakeCase` inserts an underscore before every upper-case
character that is not first and not preceded by an upper-case character,
then lower-cases the whole result; in particular it maps "FirstName" and
"firstName" to "first_name" and "First" to "first". -/
theorem claim_C9_to_snake_case :
    (∀ src, ToSnakeCase src = snakeSpec src) ∧
    ToSnakeCase "FirstName".toList = "first_name".toList ∧
    ToSnakeCase "firstName".toList = "first_name".toList ∧
    ToSnakeCase "First".toList = "first".toList := by
  refine ⟨?_, by decide, by decide, by decide⟩
  intro src
  cases src with
  | nil => rfl
  | cons c rest =>
    simp only [ToSnakeCase, snakeSpec]
    rw [snakeAux_eq_spec]

lemma occurs_in_left {a s b x m y : List Char}
    (heq : a ++ s ++ b = x ++ m ++ y) (hle : x.length + m.length ≤ a.length) :
    ∃ u v, a = u ++ m ++ v := by
  refine ⟨x, a.drop (x.length + m.length), ?_⟩
  have h1 : (a ++ (s ++ b)).take (x.length + m.length) = a.take (x.length + m.length) :=
    List.take_append_of_le_length hle
  have h2 : ((x ++ m) ++ y).take (x.length + m.length) = x ++ m := by
    have := List.take_left (x ++ m) y
    simpa using this
  have h3 : a.take (x.length + m.length) = x ++ m := by
    rw [← h1]
    rw [show a ++ (s ++ b) = (x ++ m) ++ y by simp [← List.append_assoc, heq]]
    exact h2
  calc a = a.take (x.length + m.length) ++ a.drop (x.length + m.length) :=
        (List.take_append_drop _ a).symm
    _ = x ++ m ++ a.drop (x.length + m.length) := by rw [h3]

lemma occurs_in_right {a s b x m y : List Char}
    (heq : a ++ s ++ b = x ++ m ++ y) (hge : a.length + s.length ≤ x.length) :
    ∃ u v, b = u ++ m ++ v := by
  refine ⟨b.take (x.length - a.length - s.length), y, ?_⟩
  have hb : ((a ++ s) ++ b).drop (a.length + s.length) = b := by
    have h0 := List.drop_left (a ++ s) b
    simp only [List.length_append] at h0
    exact h0
  have hmy : (x ++ (m ++ y)).drop x.length = m ++ y := List.drop_left x (m ++ y)
  have hq : (a ++ s ++ b).drop x.length = m ++ y := by
    rw [show a ++ s ++ b = x ++ (m ++ y) by simp [← List.append_assoc, heq]]
    exact hmy
  have hsplit : b.drop (x.length - a.length - s.length) = m ++ y := by
    have h3 := List.drop_drop (x.length - a.length - s.length) (a.length + s.length) (a ++ s ++ b)
    rw [show a.length + s.length + (x.length - a.length - s.length) = x.length by omega] at h3
    rw [show (a ++ s ++ b).drop (a.length + s.length) = b from hb] at h3
    rw [h3, hq]
  calc b = b.take (x.length - a.length - s.length) ++ b.drop (x.length - a.length - s.length) :=
        (List.take_append_drop _ b).symm
    _ = _ := by rw [hsplit]; simp

lemma marker_sel_no_overlap {a b x y : List Char}
    (heq : a ++ queryReplace ++ b = x ++ inQueryReplace ++ y) :
    x.length + inQueryReplace.length ≤ a.length ∨
      a.length + queryReplace.length ≤ x.length := by
  by_contra hc
  push_neg at hc
  obtain ⟨h1, h2⟩ := hc
  have hS : ∀ j, j < queryReplace.length →
      (a ++ queryReplace ++ b)[a.length + j]? = queryReplace[j]? := by
    intro j hj
    rw [List.append_assoc, List.getElem?_append_right (by omega)]
    rw [show a.length + j - a.length = j by omega]
    rw [List.getElem?_append_left hj]
  have hM : ∀ j, j < inQueryReplace.length →
      (a ++ queryReplace ++ b)[x.length + j]? = inQueryReplace[j]? := by
    intro j hj
    rw [heq, List.append_assoc, List.getElem?_append_right (by omega)]
    rw [show x.length + j - x.length = j by omega]
    rw [List.getElem?_append_left hj]
  rcases le_or_lt a.length x.length with hle | hlt
  · set d := x.length - a.length with hd
    have hd7 : d ≤ 7 := by
      simp [queryReplace] at h2
      omega
    have e1 : (a ++ queryReplace ++ b)[x.length]? = inQueryReplace[0]? := by
      have := hM 0 (by simp [inQueryReplace])
      simpa using this
    have e2 : (a ++ queryReplace ++ b)[a.length + d]? = queryReplace[d]? := by
      apply hS
      simp [queryReplace]
      omega
    rw [show a.length + d = x.length by omega] at e2
    have : queryReplace[d]? = inQueryReplace[0]? := by rw [← e1, ← e2]
    interval_cases d <;> simp [queryReplace, inQueryReplace] at this
  · set e := a.length - x.length with he
    have he1 : 1 ≤ e := by omega
    have he5 : e ≤ 5 := by
      simp [inQueryReplace] at h1
      omega
    have e1 : (a ++ queryReplace ++ b)[a.length]? = queryReplace[0]? := by
      have := hS 0 (by simp [queryReplace])
      simpa using this
    have e2 : (a ++ queryReplace ++ b)[x.length + e]? = inQueryReplace[e]? := by
      apply hM
      simp [inQueryReplace]
      omega
    rw [show x.length + e = a.length by omega] at e2
    have : queryReplace[0]? = inQueryReplace[e]? := by rw [← e1, ← e2]
    interval_cases e <;> simp [queryReplace, inQueryReplace] at this

lemma contains_after_select_replace {q : List Char} (r : List Char)
    (h : containsSubstr q inQueryReplace = true) :
    containsSubstr (replaceFirst queryReplace r q) inQueryReplace = true := by
  cases hfi : firstIdx? q queryReplace with
  | none =>
    rw [replaceFirst_of_none _ hfi]
    exact h
  | some k =>
    rw [replaceFirst_decomp _ hfi]
    obtain ⟨x, y, hxy⟩ := contains_exists h
    have heq : q.take k ++ queryReplace ++ q.drop (k + queryReplace.length) =
        x ++ inQueryReplace ++ y := by
      rw [← firstIdx?_decomp hfi]
      exact hxy
    rcases marker_sel_no_overlap heq with hL | hR
    · obtain ⟨u, v, huv⟩ := occurs_in_left heq hL
      rw [huv]
      rw [show (u ++ inQueryReplace ++ v) ++ r ++ q.drop (k + queryReplace.length) =
          u ++ inQueryReplace ++ (v ++ r ++ q.drop (k + queryReplace.length)) by simp]
      exact contains_of_append _ _ _
    · obtain ⟨u, v, huv⟩ := occurs_in_right heq hR
      rw [huv]
      rw [show q.take k ++ r ++ (u ++ inQueryReplace ++ v) =
          (q.take k ++ r ++ u) ++ inQueryReplace ++ v by simp]
      exact contains_of_append _ _ _

/-- Claim C10: when the query contains the IN-marker and no arguments are
supplied, `QueryBasicDb`, `QueryBasicRowDb` and `doQueryDb` (with a bound
database handle) return immediately with a zero-value result and nil error:
no IN-expansion runs and the database is never invoked; in particular
`QueryBasicRowDb` does not reach its `sql.ErrNoRows` branch. -/
theorem claim_C10_empty_args_early_return (q colsStr : List Char)
    (h : containsSubstr q inQueryReplace = true) :
    QueryBasicDb q [] = .earlyEmpty ∧
    QueryBasicRowDb q [] = .earlyEmpty ∧
    doQueryDb true colsStr q [] = .earlyEmpty := by
  refine ⟨?_, ?_, ?_⟩
  · unfold QueryBasicDb basicPrologue
    simp [h]
  · unfold QueryBasicRowDb basicPrologue
    simp [h]
  · unfold doQueryDb
    have h1 := contains_after_select_replace ("SELECT ".toList ++ colsStr) h
    simp at h1
    simp [h1]

theorem claim_C10_witness :
    QueryBasicDb "SELECT id FROM t WHERE id IN (*)".toList [] = .earlyEmpty ∧
    QueryBasicRowDb "SELECT id FROM t WHERE id IN (*)".toList [] = .earlyEmpty ∧
    doQueryDb true "id, name".toList "SELECT * FROM t WHERE id IN (*)".toList [] =
      .earlyEmpty :=
  ⟨(claim_C10_empty_args_early_return "SELECT id FROM t WHERE id IN (*)".toList
      "id, name".toList (by decide)).1,
   (claim_C10_empty_args_early_return "SELECT id FROM t WHERE id IN (*)".toList
      "id, name".toList (by decide)).2.1,
   (claim_C10_empty_args_early_return "SELECT * FROM t WHERE id IN (*)".toList
      "id, name".toList (by decide)).2.2⟩

lemma char_toNat_inj {a b : Char} (h : a.toNat = b.toNat) : a = b :=
  Char.ext (UInt32.toNat.inj h)

lemma listLe_total (a b : List Char) : listLe a b = true ∨ listLe b a = true := by
  induction a generalizing b with
  | nil => left; rfl
  | cons x as ih =>
    cases b with
    | nil => right; rfl
    | cons y bs =>
      by_cases hxy : x = y
      · subst hxy
        simp only [listLe, if_pos rfl]
        exact ih bs
      · have hne : x.toNat ≠ y.toNat := fun hc => hxy (char_toNat_inj hc)
        simp only [listLe, if_neg hxy, if_neg (Ne.symm hxy)]
        rcases Nat.lt_or_ge x.toNat y.toNat with hlt | hge
        · left; simpa using hlt
        · right; simp; omega

lemma listLe_trans {a b c : List Char} (h1 : listLe a b = true)
    (h2 : listLe b c = true) : listLe a c = true := by
  induction a generalizing b c with
  | nil => rfl
  | cons x as ih =>
    cases b with
    | nil => simp [listLe] at h1
    | cons y bs =>
      cases c with
      | nil => simp [listLe] at h2
      | cons z cs =>
        by_cases hxy : x = y <;> by_cases hyz : y = z
        · subst hxy; subst hyz
          simp only [listLe, if_pos rfl] at h1 h2 ⊢
          exact ih h1 h2
        · subst hxy
          simp only [listLe, if_pos rfl, if_neg hyz] at h1 h2 ⊢
          exact h2
        · subst hyz
          simp only [listLe, if_pos rfl, if_neg hxy] at h1 h2 ⊢
          exact h1
        · simp only [listLe, if_neg hxy, if_neg hyz] at h1 h2
          simp only [listLe]
          by_cases hxz : x = z
          · subst hxz
            simp at h1 h2
            omega
          · simp only [if_neg hxz]
            simp at h1 h2 ⊢
            omega

lemma listLe_antisymm {a b : List Char} (h1 : listLe a b = true)
    (h2 : listLe b a = true) : a = b := by
  induction a generalizing b with
  | nil =>
    cases b with
    | nil => rfl
    | cons y bs => simp [listLe] at h2
  | cons x as ih =>
    cases b with
    | nil => simp [listLe] at h1
    | cons y bs =>
      by_cases hxy : x = y
      · subst hxy
        simp only [listLe, if_pos rfl] at h1 h2
        rw [ih h1 h2]
      · simp only [listLe, if_neg hxy, if_neg (Ne.symm hxy)] at h1 h2
        simp at h1 h2
        omega

instance : IsTotal (List Char) strLe := ⟨fun a b => listLe_total a b⟩

instance : IsTrans (List Char) strLe := ⟨fun _ _ _ => listLe_trans⟩

instance : IsAntisymm (List Char) strLe := ⟨fun _ _ => listLe_antisymm⟩

lemma sortStrings_sorted (l : List (List Char)) : List.Sorted strLe (sortStrings l) :=
  List.sorted_insertionSort strLe l

lemma sortStrings_perm (l : List (List Char)) : (sortStrings l).Perm l :=
  List.perm_insertionSort strLe l

lemma sortStrings_eq_of_perm {l₁ l₂ : List (List Char)} (h : l₁.Perm l₂) :
    sortStrings l₁ = sortStrings l₂ :=
  List.eq_of_perm_of_sorted ((sortStrings_perm l₁).trans (h.trans (sortStrings_perm l₂).symm))
    (sortStrings_sorted l₁) (sortStrings_sorted l₂)

lemma buildFields_nil (nm : List Char → List Char) (incPk appIgn : Bool) (i : Nat)
    (acc : FieldInfo) : buildFields nm incPk appIgn [] i acc = acc := by
  simp [buildFields]

lemma getFieldInfoPure_mk (nm : List Char → List Char) (incPk appIgn : Bool)
    (n : List Char) (fs : List GoField) :
    getFieldInfoPure nm incPk appIgn (GoType.mk n fs) =
      buildFields nm incPk appIgn fs 0 [] := by
  simp [getFieldInfoPure]

lemma buildFields_cons_emb (nm : List Char → List Char) (incPk appIgn : Bool)
    (fn ftag : List Char) (fpk fig fux : Bool) (sub : GoType) (rest : List GoField)
    (i : Nat) (acc : FieldInfo) :
    buildFields nm incPk appIgn (GoField.mk fn ftag fpk fig fux (some sub) false :: rest) i acc =
      if skipField incPk appIgn (GoField.mk fn ftag fpk fig fux (some sub) false) then
        buildFields nm incPk appIgn rest (i + 1) acc
      else
        buildFields nm incPk appIgn rest (i + 1)
          (mergeEmb i (getFieldInfoPure nm incPk appIgn sub) acc) := by
  rw [buildFields]

lemma buildFields_cons_none (nm : List Char → List Char) (incPk appIgn : Bool)
    (fn ftag : List Char) (fpk fig fux fsc : Bool) (rest : List GoField)
    (i : Nat) (acc : FieldInfo) :
    buildFields nm incPk appIgn (GoField.mk fn ftag fpk fig fux none fsc :: rest) i acc =
      if skipField incPk appIgn (GoField.mk fn ftag fpk fig fux none fsc) then
        buildFields nm incPk appIgn rest (i + 1) acc
      else
        buildFields nm incPk appIgn rest (i + 1)
          (fiInsert (nm (if ftag = [] then fn else ftag)) [i] acc) := by
  rw [buildFields]
  · rfl
  · intro a b c d e s heq
    cases heq

lemma buildFields_cons_scan (nm : List Char → List Char) (incPk appIgn : Bool)
    (fn ftag : List Char) (fpk fig fux : Bool) (sub : GoType) (rest : List GoField)
    (i : Nat) (acc : FieldInfo) :
    buildFields nm incPk appIgn (GoField.mk fn ftag fpk fig fux (some sub) true :: rest) i acc =
      if skipField incPk appIgn (GoField.mk fn ftag fpk fig fux (some sub) true) then
        buildFields nm incPk appIgn rest (i + 1) acc
      else
        buildFields nm incPk appIgn rest (i + 1)
          (fiInsert (nm (if ftag = [] then fn else ftag)) [i] acc) := by
  rw [buildFields]
  · rfl
  · intro a b c d e s heq
    cases heq

lemma fiKeys_nil : fiKeys [] = [] := rfl

lemma fiKeys_cons (e : List Char × List Nat) (m : FieldInfo) :
    fiKeys (e :: m) = e.1 :: fiKeys m := rfl

lemma fiInsert_keys_mem (k k' : List Char) (v : List Nat) (m : FieldInfo) :
    k ∈ fiKeys (fiInsert k' v m) ↔ k = k' ∨ k ∈ fiKeys m := by
  induction m with
  | nil =>
    rw [show fiInsert k' v [] = [(k', v)] from rfl, fiKeys_cons, fiKeys_nil]
    simp
  | cons e rest ih =>
    by_cases he : e.1 = k'
    · subst he
      rw [show fiInsert e.1 v (e :: rest) = (e.1, v) :: rest by simp [fiInsert]]
      rw [fiKeys_cons, fiKeys_cons]
      simp only [List.mem_cons]
      tauto
    · rw [show fiInsert k' v (e :: rest) = e :: fiInsert k' v rest by simp [fiInsert, he]]
      rw [fiKeys_cons, fiKeys_cons]
      simp only [List.mem_cons]
      rw [ih]
      tauto

lemma fiInsert_keys_nodup (k : List Char) (v : List Nat) (m : FieldInfo)
    (h : (fiKeys m).Nodup) : (fiKeys (fiInsert k v m)).Nodup := by
  induction m with
  | nil =>
    rw [show fiInsert k v [] = [(k, v)] from rfl]
    simp [fiKeys_cons, fiKeys_nil]
  | cons e rest ih =>
    rw [fiKeys_cons, List.nodup_cons] at h
    by_cases he : e.1 = k
    · subst he
      rw [show fiInsert e.1 v (e :: rest) = (e.1, v) :: rest by simp [fiInsert]]
      rw [fiKeys_cons, List.nodup_cons]
      exact h
    · rw [show fiInsert k v (e :: rest) = e :: fiInsert k v rest by simp [fiInsert, he]]
      rw [fiKeys_cons, List.nodup_cons]
      refine ⟨?_, ih h.2⟩
      intro hc
      rw [fiInsert_keys_mem] at hc
      rcases hc with hc | hc
      · exact he (by rw [hc])
      · exact h.1 hc

lemma mergeEmb_keys_mem (k : List Char) (i : Nat) (sub acc : FieldInfo) :
    k ∈ fiKeys (mergeEmb i sub acc) ↔ k ∈ fiKeys sub ∨ k ∈ fiKeys acc := by
  induction sub generalizing acc with
  | nil =>
    rw [show mergeEmb i [] acc = acc from rfl, fiKeys_nil]
    simp
  | cons e rest ih =>
    cases e with
    | mk ek ev =>
      rw [show mergeEmb i ((ek, ev) :: rest) acc =
          mergeEmb i rest (fiInsert ek (i :: ev) acc) from rfl]
      rw [ih, fiInsert_keys_mem, fiKeys_cons]
      simp only [List.mem_cons]
      tauto

lemma mergeEmb_keys_nodup (i : Nat) (sub acc : FieldInfo)
    (h : (fiKeys acc).Nodup) : (fiKeys (mergeEmb i sub acc)).Nodup := by
  induction sub generalizing acc with
  | nil => exact h
  | cons e rest ih =>
    cases e with
    | mk ek ev => exact ih _ (fiInsert_keys_nodup _ _ _ h)

/-- The logical column names a single field contributes to the resolved
metadata: none when skipped, the nested key set when it is an embedded
sub-record without a custom `Scanner`, its mapped tag or name otherwise. -/
def fieldKeys (nm : List Char → List Char) (incPk appIgn : Bool) (f : GoField) :
    List (List Char) :=
  if skipField incPk appIgn f then []
  else
    match f with
    | .mk _ _ _ _ _ (some sub) false => fiKeys (getFieldInfoPure nm incPk appIgn sub)
    | _ => [nm (if f.tag = [] then f.fname else f.tag)]

lemma fieldKeys_emb (nm : List Char → List Char) (incPk appIgn : Bool)
    (fn ftag : List Char) (fpk fig fux : Bool) (sub : GoType) :
    fieldKeys nm incPk appIgn (GoField.mk fn ftag fpk fig fux (some sub) false) =
      if skipField incPk appIgn (GoField.mk fn ftag fpk fig fux (some sub) false) then []
      else fiKeys (getFieldInfoPure nm incPk appIgn sub) := rfl

lemma fieldKeys_none (nm : List Char → List Char) (incPk appIgn : Bool)
    (fn ftag : List Char) (fpk fig fux fsc : Bool) :
    fieldKeys nm incPk appIgn (GoField.mk fn ftag fpk fig fux none fsc) =
      if skipField incPk appIgn (GoField.mk fn ftag fpk fig fux none fsc) then []
      else [nm (if ftag = [] then fn else ftag)] := rfl

lemma fieldKeys_scan (nm : List Char → List Char) (incPk appIgn : Bool)
    (fn ftag : List Char) (fpk fig fux : Bool) (sub : GoType) :
    fieldKeys nm incPk appIgn (GoField.mk fn ftag fpk fig fux (some sub) true) =
      if skipField incPk appIgn (GoField.mk fn ftag fpk fig fux (some sub) true) then []
      else [nm (if ftag = [] then fn else ftag)] := rfl

lemma buildFields_keys_mem (nm : List Char → List Char) (incPk appIgn : Bool)
    (k : List Char) :
    ∀ (fs : List GoField) (i : Nat) (acc : FieldInfo),
      k ∈ fiKeys (buildFields nm incPk appIgn fs i acc) ↔
        (∃ f ∈ fs, k ∈ fieldKeys nm incPk appIgn f) ∨ k ∈ fiKeys acc := by
  intro fs
  induction fs with
  | nil => simp [buildFields_nil]
  | cons f rest ih =>
    intro i acc
    cases f with
    | mk fn ftag fpk fig fux femb fsc =>
      cases femb with
      | none =>
        rw [buildFields_cons_none]
        by_cases hskip : skipField incPk appIgn (GoField.mk fn ftag fpk fig fux none fsc) = true
        · rw [if_pos hskip, ih]
          simp only [List.mem_cons]
          constructor
          · rintro (⟨g, hg, hk⟩ | h)
            · exact Or.inl ⟨g, Or.inr hg, hk⟩
            · exact Or.inr h
          · rintro (⟨g, hg | hg, hk⟩ | h)
            · subst hg
              rw [fieldKeys_none, if_pos hskip] at hk
              simp at hk
            · exact Or.inl ⟨g, hg, hk⟩
            · exact Or.inr h
        · rw [if_neg hskip, ih, fiInsert_keys_mem]
          simp only [List.mem_cons, List.mem_singleton]
          constructor
          · rintro (⟨g, hg, hk⟩ | h | h)
            · exact Or.inl ⟨g, Or.inr hg, hk⟩
            · exact Or.inl ⟨_, Or.inl rfl, by simp [fieldKeys_none, hskip, h]⟩
            · exact Or.inr h
          · rintro (⟨g, hg | hg, hk⟩ | h)
            · subst hg
              rw [fieldKeys_none, if_neg hskip] at hk
              simp at hk
              exact Or.inr (Or.inl hk)
            · exact Or.inl ⟨g, hg, hk⟩
            · exact Or.inr (Or.inr h)
      | some sub =>
        cases fsc with
        | false =>
          rw [buildFields_cons_emb]
          by_cases hskip : skipField incPk appIgn
              (GoField.mk fn ftag fpk fig fux (some sub) false) = true
          · rw [if_pos hskip, ih]
            simp only [List.mem_cons]
            constructor
            · rintro (⟨g, hg, hk⟩ | h)
              · exact Or.inl ⟨g, Or.inr hg, hk⟩
              · exact Or.inr h
            · rintro (⟨g, hg | hg, hk⟩ | h)
              · subst hg
                rw [fieldKeys_emb, if_pos hskip] at hk
                simp at hk
              · exact Or.inl ⟨g, hg, hk⟩
              · exact Or.inr h
          · rw [if_neg hskip, ih, mergeEmb_keys_mem]
            simp only [List.mem_cons]
            constructor
            · rintro (⟨g, hg, hk⟩ | h | h)
              · exact Or.inl ⟨g, Or.inr hg, hk⟩
              · exact Or.inl ⟨_, Or.inl rfl, by rw [fieldKeys_emb, if_neg hskip]; exact h⟩
              · exact Or.inr h
            · rintro (⟨g, hg | hg, hk⟩ | h)
              · subst hg
                rw [fieldKeys_emb, if_neg hskip] at hk
                exact Or.inr (Or.inl hk)
              · exact Or.inl ⟨g, hg, hk⟩
              · exact Or.inr (Or.inr h)
        | true =>
          rw [buildFields_cons_scan]
          by_cases hskip : skipField incPk appIgn
              (GoField.mk fn ftag fpk fig fux (some sub) true) = true
          · rw [if_pos hskip, ih]
            simp only [List.mem_cons]
            constructor
            · rintro (⟨g, hg, hk⟩ | h)
              · exact Or.inl ⟨g, Or.inr hg, hk⟩
              · exact Or.inr h
            · rintro (⟨g, hg | hg, hk⟩ | h)
              · subst hg
                rw [fieldKeys_scan, if_pos hskip] at hk
                simp at hk
              · exact Or.inl ⟨g, hg, hk⟩
              · exact Or.inr h
          · rw [if_neg hskip, ih, fiInsert_keys_mem]
            simp only [List.mem_cons, List.mem_singleton]
            constructor
            · rintro (⟨g, hg, hk⟩ | h | h)
              · exact Or.inl ⟨g, Or.inr hg, hk⟩
              · exact Or.inl ⟨_, Or.inl rfl, by simp [fieldKeys_scan, hskip, h]⟩
              · exact Or.inr h
            · rintro (⟨g, hg | hg, hk⟩ | h)
              · subst hg
                rw [fieldKeys_scan, if_neg hskip] at hk
                simp at hk
                exact Or.inr (Or.inl hk)
              · exact Or.inl ⟨g, hg, hk⟩
              · exact Or.inr (Or.inr h)

lemma buildFields_keys_nodup (nm : List Char → List Char) (incPk appIgn : Bool) :
    ∀ (fs : List GoField) (i : Nat) (acc : FieldInfo),
      (fiKeys acc).Nodup → (fiKeys (buildFields nm incPk appIgn fs i acc)).Nodup := by
  intro fs
  induction fs with
  | nil =>
    intro i acc h
    rw [buildFields_nil]
    exact h
  | cons f rest ih =>
    intro i acc h
    cases f with
    | mk fn ftag fpk fig fux femb fsc =>
      cases femb with
      | none =>
        rw [buildFields_cons_none]
        by_cases hskip : skipField incPk appIgn (GoField.mk fn ftag fpk fig fux none fsc) = true
        · rw [if_pos hskip]; exact ih _ _ h
        · rw [if_neg hskip]; exact ih _ _ (fiInsert_keys_nodup _ _ _ h)
      | some sub =>
        cases fsc with
        | false =>
          rw [buildFields_cons_emb]
          by_cases hskip : skipField incPk appIgn
              (GoField.mk fn ftag fpk fig fux (some sub) false) = true
          · rw [if_pos hskip]; exact ih _ _ h
          · rw [if_neg hskip]; exact ih _ _ (mergeEmb_keys_nodup _ _ _ h)
        | true =>
          rw [buildFields_cons_scan]
          by_cases hskip : skipField incPk appIgn
              (GoField.mk fn ftag fpk fig fux (some sub) true) = true
          · rw [if_pos hskip]; exact ih _ _ h
          · rw [if_neg hskip]; exact ih _ _ (fiInsert_keys_nodup _ _ _ h)

lemma getFieldInfoPure_keys_nodup (nm : List Char → List Char) (incPk appIgn : Bool)
    (t : GoType) : (fiKeys (getFieldInfoPure nm incPk appIgn t)).Nodup := by
  cases t with
  | mk n fs =>
    rw [getFieldInfoPure_mk]
    exact buildFields_keys_nodup nm incPk appIgn fs 0 [] (by rw [fiKeys_nil]; exact List.nodup_nil)

/-- Claim C4: `columns` returns exactly the logical column names of the
resolved metadata (`includePk = true, applyIgnore = false`), sorted under
the `sort.Strings` order and joined with ", ".  The output is deterministic:
any iteration order of the map keys yields the same joined string, and
permuting the declaration order of the fields leaves the output unchanged. -/
theorem claim_C4_column_projection (nm : List Char → List Char) (t : GoType) :
    List.Sorted strLe (getColumns nm true false t) ∧
    (getColumns nm true false t).Perm (fiKeys (getFieldInfoPure nm true false t)) ∧
    columns nm t = List.intercalate ", ".toList (getColumns nm true false t) ∧
    (∀ names, names.Perm (fiKeys (getFieldInfoPure nm true false t)) →
      List.intercalate ", ".toList (sortStrings names) = columns nm t) ∧
    (∀ n fs fs', fs.Perm fs' →
      columns nm (GoType.mk n fs) = columns nm (GoType.mk n fs')) := by
  refine ⟨sortStrings_sorted _, sortStrings_perm _, rfl, ?_, ?_⟩
  · intro names hperm
    unfold columns getColumns
    rw [sortStrings_eq_of_perm hperm]
  · intro n fs fs' hperm
    unfold columns getColumns
    rw [getFieldInfoPure_mk, getFieldInfoPure_mk]
    congr 1
    apply sortStrings_eq_of_perm
    refine (List.perm_ext_iff_of_nodup ?_ ?_).mpr ?_
    · exact buildFields_keys_nodup nm true false fs 0 [] (by rw [fiKeys_nil]; exact List.nodup_nil)
    · exact buildFields_keys_nodup nm true false fs' 0 [] (by rw [fiKeys_nil]; exact List.nodup_nil)
    · intro a
      rw [buildFields_keys_mem, buildFields_keys_mem]
      constructor
      · rintro (⟨g, hg, hk⟩ | h)
        · exact Or.inl ⟨g, hperm.subset hg, hk⟩
        · exact Or.inr h
      · rintro (⟨g, hg, hk⟩ | h)
        · exact Or.inl ⟨g, hperm.symm.subset hg, hk⟩
        · exact Or.inr h

theorem claim_C4_witness :
    List.intercalate ", ".toList (sortStrings ["A".toList, "B".toList]) =
      columns (fun s => s)
        (GoType.mk "T".toList
          [GoField.mk "B".toList [] false false false none false,
           GoField.mk "A".toList [] false false false none false]) ∧
    columns (fun s => s)
      (GoType.mk "T".toList
        [GoField.mk "B".toList [] false false false none false,
         GoField.mk "A".toList [] false false false none false]) =
      columns (fun s => s)
        (GoType.mk "T".toList
          [GoField.mk "A".toList [] false false false none false,
           GoField.mk "B".toList [] false false false none false]) ∧
    columns (fun s => s)
      (GoType.mk "T".toList
        [GoField.mk "B".toList [] false false false none false,
         GoField.mk "A".toList [] false false false none false]) = "A, B".toList := by
  refine ⟨?_, ?_, by decide⟩
  · exact (claim_C4_column_projection (fun s => s)
      (GoType.mk "T".toList
        [GoField.mk "B".toList [] false false false none false,
         GoField.mk "A".toList [] false false false none false])).2.2.2.1
      ["A".toList, "B".toList] (by decide)
  · exact (claim_C4_column_projection (fun s => s)
      (GoType.mk "T".toList [])).2.2.2.2 "T".toList
      [GoField.mk "B".toList [] false false false none false,
       GoField.mk "A".toList [] false false false none false]
      [GoField.mk "A".toList [] false false false none false,
       GoField.mk "B".toList [] false false false none false]
      (List.Perm.swap (GoField.mk "A".toList [] false false false none false)
        (GoField.mk "B".toList [] false false false none false) [])

/-- Spec-side description of what the primary-key loop collects: one entry
per `sql-auto`-tagged field, keyed by the raw field name, valued by the
singleton index path. -/
def pkEntries : List GoField → Nat → FieldInfo
  | [], _ => []
  | f :: rest, i =>
    (if f.isPk then [(f.fname, [i])] else []) ++ pkEntries rest (i + 1)

lemma fiInsert_fresh (k : List Char) (v : List Nat) (m : FieldInfo)
    (h : k ∉ fiKeys m) : fiInsert k v m = m ++ [(k, v)] := by
  induction m with
  | nil => rfl
  | cons e rest ih =>
    rw [fiKeys_cons, List.mem_cons] at h
    push_neg at h
    have hne : ¬ e.1 = k := fun hc => h.1 hc.symm
    rw [show fiInsert k v (e :: rest) = e :: fiInsert k v rest by simp [fiInsert, hne]]
    rw [ih h.2]
    rfl

lemma pkEntries_keys (fs : List GoField) (i : Nat) :
    fiKeys (pkEntries fs i) = (fs.filter (·.isPk)).map GoField.fname := by
  induction fs generalizing i with
  | nil => rfl
  | cons f rest ih =>
    by_cases hp : f.isPk = true
    · rw [pkEntries, if_pos hp, List.filter_cons_of_pos hp, List.map_cons]
      rw [show ([(f.fname, [i])] ++ pkEntries rest (i + 1)) =
          (f.fname, [i]) :: pkEntries rest (i + 1) from rfl]
      rw [fiKeys_cons]
      rw [ih]
    · rw [pkEntries, if_neg hp, List.filter_cons_of_neg (by simpa using hp)]
      rw [show ([] : FieldInfo) ++ pkEntries rest (i + 1) = pkEntries rest (i + 1) from rfl]
      exact ih _

lemma pkBuild_eq_entries :
    ∀ (fs : List GoField) (i : Nat) (acc : FieldInfo),
      ((fs.filter (·.isPk)).map GoField.fname).Nodup →
      (∀ n ∈ (fs.filter (·.isPk)).map GoField.fname, n ∉ fiKeys acc) →
      pkBuild fs i acc = acc ++ pkEntries fs i := by
  intro fs
  induction fs with
  | nil =>
    intro i acc _ _
    rw [show pkBuild [] i acc = acc from rfl, pkEntries]
    simp
  | cons f rest ih =>
    intro i acc hnd hdisj
    by_cases hp : f.isPk = true
    · rw [show pkBuild (f :: rest) i acc = pkBuild rest (i + 1) (fiInsert f.fname [i] acc) by
        simp [pkBuild, hp]]
      rw [List.filter_cons_of_pos hp, List.map_cons, List.nodup_cons] at hnd
      have hmemf : f.fname ∈ (List.filter (fun x => x.isPk) (f :: rest)).map GoField.fname := by
        rw [List.filter_cons_of_pos hp, List.map_cons]
        exact List.mem_cons_self _ _
      have hfresh : f.fname ∉ fiKeys acc := hdisj _ hmemf
      rw [fiInsert_fresh _ _ _ hfresh]
      have hdisj2 : ∀ n ∈ (rest.filter (·.isPk)).map GoField.fname,
          n ∉ fiKeys (acc ++ [(f.fname, [i])]) := by
        intro n hn hc
        have hkeys : fiKeys (acc ++ [(f.fname, [i])]) = fiKeys acc ++ [f.fname] := by
          simp [fiKeys]
        rw [hkeys, List.mem_append, List.mem_singleton] at hc
        rcases hc with hc | hc
        · have hmemn : n ∈ (List.filter (fun x => x.isPk) (f :: rest)).map GoField.fname := by
            rw [List.filter_cons_of_pos hp, List.map_cons]
            exact List.mem_cons_of_mem _ hn
          exact hdisj n hmemn hc
        · exact hnd.1 (hc ▸ hn)
      rw [ih (i + 1) _ hnd.2 hdisj2]
      rw [pkEntries, if_pos hp]
      simp
    · rw [show pkBuild (f :: rest) i acc = pkBuild rest (i + 1) acc by simp [pkBuild, hp]]
      rw [List.filter_cons_of_neg (by simpa using hp)] at hnd hdisj
      rw [ih (i + 1) acc hnd hdisj]
      rw [pkEntries, if_neg hp]
      rfl

lemma pkEntries_length (fs : List GoField) (i : Nat) :
    (pkEntries fs i).length = (fs.filter (·.isPk)).length := by
  have hk := pkEntries_keys fs i
  have hlen : (fiKeys (pkEntries fs i)).length = (pkEntries fs i).length := by
    simp [fiKeys]
  rw [← hlen, hk]
  simp

lemma pkEntries_of_single :
    ∀ (fs : List GoField) (i : Nat), (fs.filter (·.isPk)).length = 1 →
      ∃ j f, fs[j]? = some f ∧ f.isPk = true ∧ pkEntries fs i = [(f.fname, [i + j])] := by
  intro fs
  induction fs with
  | nil =>
    intro i h
    simp at h
  | cons f rest ih =>
    intro i h
    by_cases hp : f.isPk = true
    · rw [List.filter_cons_of_pos hp, List.length_cons] at h
      have h0 : (List.filter GoField.isPk rest).length = 0 := by omega
      have hrest : pkEntries rest (i + 1) = [] := by
        rw [← List.length_eq_zero, pkEntries_length]
        exact h0
      refine ⟨0, f, by simp, hp, ?_⟩
      rw [pkEntries, if_pos hp, hrest]
      simp
    · rw [List.filter_cons_of_neg (by simpa using hp)] at h
      obtain ⟨j, g, hj, hgpk, hent⟩ := ih (i + 1) h
      refine ⟨j + 1, g, by simpa using hj, hgpk, ?_⟩
      rw [pkEntries, if_neg hp, hent]
      rw [show i + 1 + j = i + (j + 1) by omega]
      rfl

/-- Claim C5: `getPkFieldInfo` fails with the schema error ("expected
exactly one primary key") exactly when the number of `sql-auto`-tagged
fields differs from one; the check runs only on this primary-key path
(general projection `columns` computes its value regardless of the
primary-key count), and on success the returned name and index path are the
unique primary-key field's name and position.  The cache-miss hypothesis
reflects the program state: no code path ever stores an entry under the
primary-key cache key.  Field names of a Go struct are necessarily
distinct, which the nodup hypothesis records. -/
theorem claim_C5_pk_cardinality (t : GoType) (cache : Cache)
    (hmiss : cacheLookup (pkCacheKey t) cache = none)
    (hnodup : ((t.fields.filter (·.isPk)).map GoField.fname).Nodup) :
    (pkCount t ≠ 1 →
      (getPkFieldInfo cache t).1 =
        .error ("sqlp: expected exactly one primary key; got ".toList ++
          (Nat.repr (pkCount t)).toList) ∧
      (∀ nm, columns nm t =
        List.intercalate ", ".toList (sortStrings (fiKeys (getFieldInfoPure nm true false t))))) ∧
    (pkCount t = 1 →
      ∃ j f, t.fields[j]? = some f ∧ f.isPk = true ∧
        (getPkFieldInfo cache t).1 = .ok (f.fname, [j])) := by
  have hbuild : pkBuild t.fields 0 [] = pkEntries t.fields 0 := by
    rw [pkBuild_eq_entries t.fields 0 [] hnodup (by intro n _ hc; simp [fiKeys_nil] at hc)]
    rfl
  have hlen : (pkBuild t.fields 0 []).length = pkCount t := by
    rw [hbuild, pkEntries_length]
    rfl
  constructor
  · intro hne
    constructor
    · unfold getPkFieldInfo
      rw [hmiss]
      rw [if_pos (by rw [hlen]; exact hne)]
      rw [hlen]
    · intro nm
      rfl
  · intro hone
    obtain ⟨j, f, hj, hpk, hent⟩ := pkEntries_of_single t.fields 0 hone
    refine ⟨j, f, hj, hpk, ?_⟩
    unfold getPkFieldInfo
    rw [hmiss]
    rw [if_neg (by rw [hlen, hone]; omega)]
    rw [hbuild, hent]
    rw [show (0 : Nat) + j = j by omega]
    rfl

theorem claim_C5_witness :
    ((getPkFieldInfo []
        (GoType.mk "U".toList
          [GoField.mk "A".toList [] false false false none false])).1 =
      .error "sqlp: expected exactly one primary key; got 0".toList) ∧
    ((getPkFieldInfo []
        (GoType.mk "V".toList
          [GoField.mk "ID".toList [] true false false none false,
           GoField.mk "Name".toList [] false false false none false])).1 =
      .ok ("ID".toList, [0])) := by
  constructor
  · have h := (claim_C5_pk_cardinality
      (GoType.mk "U".toList [GoField.mk "A".toList [] false false false none false])
      [] rfl (by decide)).1 (by decide)
    rw [h.1]
    rfl
  · have h := (claim_C5_pk_cardinality
      (GoType.mk "V".toList
        [GoField.mk "ID".toList [] true false false none false,
         GoField.mk "Name".toList [] false false false none false])
      [] rfl (by decide)).2 (by decide)
    obtain ⟨j, f, hj, hpk, hres⟩ := h
    rcases j with _ | _ | j
    · injection hj with hf
      rw [← hf] at hres
      exact hres
    · injection hj with hf
      rw [← hf] at hpk
      exact absurd hpk (by decide)
    · rw [show (GoType.mk "V".toList
          [GoField.mk "ID".toList [] true false false none false,
           GoField.mk "Name".toList [] false false false none false]).fields = 
          [GoField.mk "ID".toList [] true false false none false,
           GoField.mk "Name".toList [] false false false none false] from rfl] at hj
      rw [List.getElem?_eq_none (by simp)] at hj
      cases hj

lemma cacheLookup_insert (k k' : List Char) (v : FieldInfo) (c : Cache) :
    cacheLookup k (cacheInsert k' v c) = if k = k' then some v else cacheLookup k c := by
  induction c with
  | nil =>
    rw [show cacheInsert k' v [] = [(k', v)] from rfl]
    rw [show cacheLookup k [(k', v)] = if k' = k then some v else none from rfl]
    by_cases h : k = k'
    · rw [if_pos h, if_pos (by rw [h])]
    · rw [if_neg h, if_neg (fun hc => h hc.symm)]
      rfl
  | cons e rest ih =>
    by_cases he : e.1 = k'
    · rw [show cacheInsert k' v (e :: rest) = (k', v) :: rest by simp [cacheInsert, he]]
      by_cases hk : k = k'
      · rw [if_pos hk]
        rw [show cacheLookup k ((k', v) :: rest) = if k' = k then some v else cacheLookup k rest
          from rfl]
        rw [if_pos hk.symm]
      · rw [if_neg hk]
        rw [show cacheLookup k ((k', v) :: rest) = if k' = k then some v else cacheLookup k rest
          from rfl]
        rw [if_neg (fun hc => hk hc.symm)]
        rw [show cacheLookup k (e :: rest) = if e.1 = k then some e.2 else cacheLookup k rest
          from rfl]
        rw [if_neg (by rw [he]; exact fun hc => hk hc.symm)]
    · rw [show cacheInsert k' v (e :: rest) = e :: cacheInsert k' v rest by
        simp [cacheInsert, he]]
      rw [show cacheLookup k (e :: cacheInsert k' v rest) =
          if e.1 = k then some e.2 else cacheLookup k (cacheInsert k' v rest) from rfl]
      rw [show cacheLookup k (e :: rest) = if e.1 = k then some e.2 else cacheLookup k rest
        from rfl]
      by_cases hek : e.1 = k
      · rw [if_pos hek]
        have hkk' : ¬ k = k' := fun hc => he (by rw [hek, hc])
        rw [if_neg hkk', if_pos hek]
      · rw [if_neg hek, if_neg hek, ih]

/-- Claim C8, amended: general column metadata (key (type, tag, includePk,
applyIgnore)) is computed on the first request, written into the
process-wide cache, and any later request with the same key returns the
cached value with the cache unchanged; no entry is ever removed.
Primary-key metadata (key (type, primary-key tag)) only reads the cache:
its result is never written back, the cache is left exactly as it was, so
it is recomputed on every request. -/
theorem claim_C8_amended_cache_discipline (nm : List Char → List Char) (cache : Cache)
    (t : GoType) (incPk appIgn : Bool) :
    (cacheLookup (fiCacheKey t incPk appIgn) cache = none →
      getFieldInfo nm cache t incPk appIgn =
        (getFieldInfoPure nm incPk appIgn t,
          cacheInsert (fiCacheKey t incPk appIgn) (getFieldInfoPure nm incPk appIgn t) cache) ∧
      cacheLookup (fiCacheKey t incPk appIgn) (getFieldInfo nm cache t incPk appIgn).2 =
        some (getFieldInfoPure nm incPk appIgn t)) ∧
    (∀ fi, cacheLookup (fiCacheKey t incPk appIgn) cache = some fi →
      getFieldInfo nm cache t incPk appIgn = (fi, cache)) ∧
    (∀ k v, cacheLookup k cache = some v →
      cacheLookup k (getFieldInfo nm cache t incPk appIgn).2 = some v) ∧
    (getPkFieldInfo cache t).2 = cache := by
  refine ⟨?_, ?_, ?_, ?_⟩
  · intro hmiss
    constructor
    · unfold getFieldInfo
      rw [hmiss]
    · unfold getFieldInfo
      rw [hmiss]
      rw [show ((getFieldInfoPure nm incPk appIgn t,
          cacheInsert (fiCacheKey t incPk appIgn) (getFieldInfoPure nm incPk appIgn t)
            cache) : FieldInfo × Cache).2 =
          cacheInsert (fiCacheKey t incPk appIgn) (getFieldInfoPure nm incPk appIgn t) cache
        from rfl]
      rw [cacheLookup_insert]
      rw [if_pos rfl]
  · intro fi hhit
    unfold getFieldInfo
    rw [hhit]
  · intro k v hk
    unfold getFieldInfo
    cases hlook : cacheLookup (fiCacheKey t incPk appIgn) cache with
    | some fi => exact hk
    | none =>
      rw [show ((getFieldInfoPure nm incPk appIgn t,
          cacheInsert (fiCacheKey t incPk appIgn) (getFieldInfoPure nm incPk appIgn t)
            cache) : FieldInfo × Cache).2 =
          cacheInsert (fiCacheKey t incPk appIgn) (getFieldInfoPure nm incPk appIgn t) cache
        from rfl]
      rw [cacheLookup_insert]
      rw [if_neg (fun hc => by rw [hc] at hk; rw [hk] at hlook; cases hlook)]
      exact hk
  · unfold getPkFieldInfo
    cases hlook : cacheLookup (pkCacheKey t) cache with
    | some fi => rfl
    | none =>
      by_cases hlen : (pkBuild t.fields 0 []).length ≠ 1
      · rw [if_pos hlen]
      · rw [if_neg hlen]

/-- Counterexample to claim C8 as stated: after the very first primary-key
resolution for a one-field type against an empty cache, the result is
computed and returned, yet the cache is still empty — primary-key metadata
is never written into the process-wide cache, so later requests recompute
rather than read a cached value. -/
theorem claim_C8_counterexample :
    (getPkFieldInfo []
        (GoType.mk "User".toList
          [GoField.mk "ID".toList [] true false false none false])).1 =
      .ok ("ID".toList, [0]) ∧
    (getPkFieldInfo []
        (GoType.mk "User".toList
          [GoField.mk "ID".toList [] true false false none false])).2 = [] ∧
    cacheLookup (pkCacheKey (GoType.mk "User".toList
        [GoField.mk "ID".toList [] true false false none false]))
      ((getPkFieldInfo []
        (GoType.mk "User".toList
          [GoField.mk "ID".toList [] true false false none false])).2) = none := by
  refine ⟨rfl, rfl, rfl⟩

theorem claim_C8_witness :
    (getFieldInfo (fun s => s) []
        (GoType.mk "W".toList [GoField.mk "A".toList [] false false false none false])
        true false =
      ([("A".toList, [0])],
        [(fiCacheKey (GoType.mk "W".toList
            [GoField.mk "A".toList [] false false false none false]) true false,
          [("A".toList, [0])])])) ∧
    (getFieldInfo (fun s => s)
        [(fiCacheKey (GoType.mk "W".toList
            [GoField.mk "A".toList [] false false false none false]) true false,
          [("A".toList, [0])])]
        (GoType.mk "W".toList [GoField.mk "A".toList [] false false false none false])
        true false =
      ([("A".toList, [0])],
        [(fiCacheKey (GoType.mk "W".toList
            [GoField.mk "A".toList [] false false false none false]) true false,
          [("A".toList, [0])])])) ∧
    (getPkFieldInfo []
        (GoType.mk "W".toList [GoField.mk "A".toList [] true false false none false])).2 =
      [] := by
  refine ⟨?_, ?_, ?_⟩
  · have h := ((claim_C8_amended_cache_discipline (fun s => s) []
      (GoType.mk "W".toList [GoField.mk "A".toList [] false false false none false])
      true false).1 rfl).1
    rw [h]
    rfl
  · have h := (claim_C8_amended_cache_discipline (fun s => s)
      [(fiCacheKey (GoType.mk "W".toList
          [GoField.mk "A".toList [] false false false none false]) true false,
        [("A".toList, [0])])]
      (GoType.mk "W".toList [GoField.mk "A".toList [] false false false none false])
      true false).2.1 [("A".toList, [0])] (by rfl)
    rw [h]
  · exact (claim_C8_amended_cache_discipline (fun s => s) []
      (GoType.mk "W".toList [GoField.mk "A".toList [] true false false none false])
      true false).2.2.2

/-- Two index paths that address disjoint parts of a value: neither is a
prefix of the other. -/
def pathIndep (p q : List Nat) : Prop := (∀ u, p ++ u ≠ q) ∧ (∀ u, q ++ u ≠ p)

lemma pathIndep_symm {p q : List Nat} (h : pathIndep p q) : pathIndep q p := ⟨h.2, h.1⟩

lemma pathIndep_cons (i : Nat) {p q : List Nat} (h : pathIndep p q) :
    pathIndep (i :: p) (i :: q) := by
  constructor
  · intro u hc
    rw [List.cons_append] at hc
    exact h.1 u (by injection hc)
  · intro u hc
    rw [List.cons_append] at hc
    exact h.2 u (by injection hc)

lemma pathIndep_cons_down {i : Nat} {p q : List Nat} (h : pathIndep (i :: p) (i :: q)) :
    pathIndep p q := by
  constructor
  · intro u hc
    exact h.1 u (by rw [List.cons_append, hc])
  · intro u hc
    exact h.2 u (by rw [List.cons_append, hc])

lemma pathIndep_head {h1 h2 : Nat} (hne : h1 ≠ h2) (p q : List Nat) :
    pathIndep (h1 :: p) (h2 :: q) := by
  constructor
  · intro u hc
    rw [List.cons_append] at hc
    exact hne (by injection hc)
  · intro u hc
    rw [List.cons_append] at hc
    exact hne (by injection hc; omega)

/-- Pairwise path-disjointness of the entries of a resolved metadata map. -/
def fiIndep (m : FieldInfo) : Prop :=
  m.Pairwise (fun a b => pathIndep a.2 b.2)

lemma fiInsert_mem_entries {e : List Char × List Nat} {k : List Char} {v : List Nat}
    {m : FieldInfo} (h : e ∈ fiInsert k v m) : e = (k, v) ∨ e ∈ m := by
  induction m with
  | nil =>
    rw [show fiInsert k v [] = [(k, v)] from rfl] at h
    simp at h
    exact Or.inl h
  | cons e2 rest ih =>
    by_cases he : e2.1 = k
    · rw [show fiInsert k v (e2 :: rest) = (k, v) :: rest by simp [fiInsert, he]] at h
      rcases List.mem_cons.mp h with h | h
      · exact Or.inl h
      · exact Or.inr (List.mem_cons_of_mem _ h)
    · rw [show fiInsert k v (e2 :: rest) = e2 :: fiInsert k v rest by
        simp [fiInsert, he]] at h
      rcases List.mem_cons.mp h with h | h
      · exact Or.inr (h ▸ List.mem_cons_self _ _)
      · rcases ih h with h | h
        · exact Or.inl h
        · exact Or.inr (List.mem_cons_of_mem _ h)

lemma fiInsert_indep {m : FieldInfo} {k : List Char} {v : List Nat}
    (hnd : (fiKeys m).Nodup) (hm : fiIndep m)
    (hv : ∀ e ∈ m, e.1 ≠ k → pathIndep v e.2) : fiIndep (fiInsert k v m) := by
  induction m with
  | nil =>
    rw [show fiInsert k v [] = [(k, v)] from rfl]
    exact List.pairwise_singleton _ _
  | cons e rest ih =>
    rw [fiKeys_cons, List.nodup_cons] at hnd
    obtain ⟨hhead, htail⟩ := List.pairwise_cons.mp hm
    by_cases he : e.1 = k
    · rw [show fiInsert k v (e :: rest) = (k, v) :: rest by simp [fiInsert, he]]
      rw [fiIndep, List.pairwise_cons]
      refine ⟨?_, htail⟩
      intro b hb
      have hbk : b.1 ≠ k := by
        intro hc
        apply hnd.1
        rw [← he] at hc
        rw [← hc]
        exact List.mem_map_of_mem Prod.fst hb
      exact hv b (List.mem_cons_of_mem _ hb) hbk
    · rw [show fiInsert k v (e :: rest) = e :: fiInsert k v rest by simp [fiInsert, he]]
      rw [fiIndep, List.pairwise_cons]
      constructor
      · intro b hb
        rcases fiInsert_mem_entries hb with hb | hb
        · rw [hb]
          exact pathIndep_symm (hv e (List.mem_cons_self _ _) he)
        · exact hhead b hb
      · exact ih hnd.2 htail (fun e2 he2 hne => hv e2 (List.mem_cons_of_mem _ he2) hne)

lemma mergeEmb_entries {e : List Char × List Nat} {i : Nat} {sub acc : FieldInfo}
    (h : e ∈ mergeEmb i sub acc) :
    e ∈ acc ∨ ∃ kv ∈ sub, e = (kv.1, i :: kv.2) := by
  induction sub generalizing acc with
  | nil => exact Or.inl h
  | cons kv rest ih =>
    cases kv with
    | mk k v =>
      rw [show mergeEmb i ((k, v) :: rest) acc =
          mergeEmb i rest (fiInsert k (i :: v) acc) from rfl] at h
      rcases ih h with h | ⟨kv2, hkv2, he⟩
      · rcases fiInsert_mem_entries h with h | h
        · exact Or.inr ⟨(k, v), List.mem_cons_self _ _, h⟩
        · exact Or.inl h
      · exact Or.inr ⟨kv2, List.mem_cons_of_mem _ hkv2, he⟩

lemma mergeEmb_good (i : Nat) :
    ∀ (sub acc : FieldInfo),
      (fiKeys acc).Nodup → fiIndep acc →
      (fiKeys sub).Nodup → fiIndep sub →
      (∀ e ∈ acc, ∀ e2 ∈ sub, e.1 ≠ e2.1 → pathIndep e.2 (i :: e2.2)) →
      (∀ e ∈ acc, ∃ h t, e.2 = h :: t ∧ h < i + 1) →
      (fiKeys (mergeEmb i sub acc)).Nodup ∧ fiIndep (mergeEmb i sub acc) ∧
        (∀ e ∈ mergeEmb i sub acc, ∃ h t, e.2 = h :: t ∧ h < i + 1) := by
  intro sub
  induction sub with
  | nil =>
    intro acc h1 h2 _ _ _ h6
    exact ⟨h1, h2, h6⟩
  | cons kv rest ih =>
    intro acc h1 h2 h3 h4 hcross hheads
    cases kv with
    | mk k v =>
      rw [fiKeys_cons, List.nodup_cons] at h3
      obtain ⟨h4head, h4tail⟩ := List.pairwise_cons.mp h4
      rw [show mergeEmb i ((k, v) :: rest) acc =
          mergeEmb i rest (fiInsert k (i :: v) acc) from rfl]
      apply ih
      · exact fiInsert_keys_nodup _ _ _ h1
      · apply fiInsert_indep h1 h2
        intro e he hne
        exact pathIndep_symm (hcross e he (k, v) (List.mem_cons_self _ _) hne)
      · exact h3.2
      · exact h4tail
      · intro e he e2 he2 hne
        rcases fiInsert_mem_entries he with he | he
        · rw [he]
          have hkind : pathIndep v e2.2 := h4head e2 he2
          exact pathIndep_cons i hkind
        · exact hcross e he e2 (List.mem_cons_of_mem _ he2) hne
      · intro e he
        rcases fiInsert_mem_entries he with he | he
        · exact ⟨i, v, by rw [he], by omega⟩
        · exact hheads e he

lemma buildFields_good (nm : List Char → List Char) (incPk appIgn : Bool) :
    ∀ (n : Nat) (fs : List GoField) (i : Nat) (acc : FieldInfo), sizeOf fs ≤ n →
      (fiKeys acc).Nodup → fiIndep acc →
      (∀ e ∈ acc, ∃ h t, e.2 = h :: t ∧ h < i) →
      fiIndep (buildFields nm incPk appIgn fs i acc) ∧
        (∀ e ∈ buildFields nm incPk appIgn fs i acc,
          ∃ h t, e.2 = h :: t ∧ h < i + fs.length) := by
  intro n
  induction n with
  | zero =>
    intro fs i acc hsz
    exfalso
    cases fs <;> simp_arith at hsz
  | succ n ihn =>
    intro fs i acc hsz hnd hind hheads
    cases fs with
    | nil =>
      rw [buildFields_nil]
      refine ⟨hind, ?_⟩
      intro e he
      obtain ⟨h, t, het, hlt⟩ := hheads e he
      exact ⟨h, t, het, by simp; omega⟩
    | cons f rest =>
      have hf1 : 1 ≤ sizeOf f := by cases f; simp_arith
      have hszrest : sizeOf rest ≤ n := by
        simp only [List.cons.sizeOf_spec] at hsz
        omega
      have hweak : ∀ e ∈ acc, ∃ h t, e.2 = h :: t ∧ h < i + 1 := by
        intro e he
        obtain ⟨h, t, het, hlt⟩ := hheads e he
        exact ⟨h, t, het, by omega⟩
      have hbound : ∀ (m : FieldInfo),
          (∀ e ∈ m, ∃ h t, e.2 = h :: t ∧ h < i + 1 + rest.length) →
          ∀ e ∈ m, ∃ h t, e.2 = h :: t ∧ h < i + (f :: rest).length := by
        intro m hm e he
        obtain ⟨h, t, het, hlt⟩ := hm e he
        exact ⟨h, t, het, by simp at hlt ⊢; omega⟩
      have hinsert : ∀ (key : List Char),
          fiIndep (fiInsert key [i] acc) ∧
          (fiKeys (fiInsert key [i] acc)).Nodup ∧
          (∀ e ∈ fiInsert key [i] acc, ∃ h t, e.2 = h :: t ∧ h < i + 1) := by
        intro key
        refine ⟨?_, fiInsert_keys_nodup _ _ _ hnd, ?_⟩
        · apply fiInsert_indep hnd hind
          intro e he _
          obtain ⟨h, t, het, hlt⟩ := hheads e he
          rw [het]
          exact pathIndep_head (by omega) _ _
        · intro e he
          rcases fiInsert_mem_entries he with he | he
          · exact ⟨i, [], by rw [he], by omega⟩
          · obtain ⟨h, t, het, hlt⟩ := hheads e he
            exact ⟨h, t, het, by omega⟩
      cases f with
      | mk fn ftag fpk fig fux femb fsc =>
        cases femb with
        | none =>
          rw [buildFields_cons_none]
          by_cases hskip : skipField incPk appIgn
              (GoField.mk fn ftag fpk fig fux none fsc) = true
          · rw [if_pos hskip]
            obtain ⟨hi, hb⟩ := ihn rest (i + 1) acc hszrest hnd hind hweak
            exact ⟨hi, hbound _ hb⟩
          · rw [if_neg hskip]
            obtain ⟨hins1, hins2, hins3⟩ := hinsert (nm (if ftag = [] then fn else ftag))
            obtain ⟨hi, hb⟩ := ihn rest (i + 1) _ hszrest hins2 hins1 hins3
            exact ⟨hi, hbound _ hb⟩
        | some sub =>
          cases fsc with
          | true =>
            rw [buildFields_cons_scan]
            by_cases hskip : skipField incPk appIgn
                (GoField.mk fn ftag fpk fig fux (some sub) true) = true
            · rw [if_pos hskip]
              obtain ⟨hi, hb⟩ := ihn rest (i + 1) acc hszrest hnd hind hweak
              exact ⟨hi, hbound _ hb⟩
            · rw [if_neg hskip]
              obtain ⟨hins1, hins2, hins3⟩ := hinsert (nm (if ftag = [] then fn else ftag))
              obtain ⟨hi, hb⟩ := ihn rest (i + 1) _ hszrest hins2 hins1 hins3
              exact ⟨hi, hbound _ hb⟩
          | false =>
            rw [buildFields_cons_emb]
            have hsub : fiIndep (getFieldInfoPure nm incPk appIgn sub) ∧
                (∀ e ∈ getFieldInfoPure nm incPk appIgn sub,
                  ∃ h t, e.2 = h :: t ∧ h < 0 + sub.fields.length) := by
              cases sub with
              | mk n2 fs2 =>
                rw [getFieldInfoPure_mk]
                apply ihn fs2 0 []
                · simp only [List.cons.sizeOf_spec, GoField.mk.sizeOf_spec,
                    Option.some.sizeOf_spec, GoType.mk.sizeOf_spec] at hsz
                  omega
                · rw [fiKeys_nil]; exact List.nodup_nil
                · exact List.Pairwise.nil
                · intro e he; cases he
            by_cases hskip : skipField incPk appIgn
                (GoField.mk fn ftag fpk fig fux (some sub) false) = true
            · rw [if_pos hskip]
              obtain ⟨hi, hb⟩ := ihn rest (i + 1) acc hszrest hnd hind hweak
              exact ⟨hi, hbound _ hb⟩
            · rw [if_neg hskip]
              obtain ⟨hm1, hm2, hm3⟩ := mergeEmb_good i
                (getFieldInfoPure nm incPk appIgn sub) acc hnd hind
                (getFieldInfoPure_keys_nodup nm incPk appIgn sub) hsub.1
                (by
                  intro e he e2 _ _
                  obtain ⟨h, t, het, hlt⟩ := hheads e he
                  rw [het]
                  exact pathIndep_head (by omega) _ _)
                hweak
              obtain ⟨hi, hb⟩ := ihn rest (i + 1) _ hszrest hm1 hm2 hm3
              exact ⟨hi, hbound _ hb⟩

lemma getFieldInfoPure_indep (nm : List Char → List Char) (incPk appIgn : Bool)
    (t : GoType) : fiIndep (getFieldInfoPure nm incPk appIgn t) := by
  cases t with
  | mk n fs =>
    rw [getFieldInfoPure_mk]
    exact (buildFields_good nm incPk appIgn (sizeOf fs) fs 0 [] (by omega)
      (by rw [fiKeys_nil]; exact List.nodup_nil) List.Pairwise.nil
      (by intro e he; cases he)).1

lemma fiLookup_mem {k : List Char} {p : List Nat} {m : FieldInfo}
    (h : fiLookup k m = some p) : (k, p) ∈ m := by
  induction m with
  | nil => cases h
  | cons e rest ih =>
    by_cases he : e.1 = k
    · rw [show fiLookup k (e :: rest) = some e.2 by simp [fiLookup, he]] at h
      injection h with h
      rw [← h, ← he]
      exact List.mem_cons_self _ _
    · rw [show fiLookup k (e :: rest) = fiLookup k rest by simp [fiLookup, he]] at h
      exact List.mem_cons_of_mem _ (ih h)

lemma indep_of_lookups {m : FieldInfo} {k1 k2 : List Char} {p1 p2 : List Nat}
    (hind : fiIndep m) (h1 : fiLookup k1 m = some p1) (h2 : fiLookup k2 m = some p2)
    (hk : k1 ≠ k2) : pathIndep p1 p2 := by
  have hm1 := fiLookup_mem h1
  have hm2 := fiLookup_mem h2
  have hne : ((k1, p1) : List Char × List Nat) ≠ (k2, p2) := by
    intro hc
    exact hk (congrArg Prod.fst hc)
  exact List.Pairwise.forall (fun a b h => pathIndep_symm h) hind hm1 hm2 hne

lemma setPath_prim (n : Nat) (i : Nat) (p : List Nat) (w : Val) :
    setPath (Val.prim n) (i :: p) w = Val.prim n := by
  rw [setPath]

lemma setPath_strukt (fs : List Val) (i : Nat) (p : List Nat) (w : Val) :
    setPath (Val.strukt fs) (i :: p) w = Val.strukt (setInList fs i p w) := by
  rw [setPath]

lemma getPath_strukt (fs : List Val) (i : Nat) (p : List Nat) :
    getPath (Val.strukt fs) (i :: p) =
      match fs[i]? with
      | some v => getPath v p
      | none => none := by
  rw [getPath]

lemma setInList_getElem? :
    ∀ (l : List Val) (idx : Nat) (p : List Nat) (w : Val) (j : Nat),
      (setInList l idx p w)[j]? =
        if j = idx then (l[j]?).map (fun v => setPath v p w) else l[j]? := by
  intro l
  induction l with
  | nil =>
    intro idx p w j
    rw [show setInList [] idx p w = [] by rw [setInList]]
    simp
  | cons v rest ih =>
    intro idx p w j
    cases idx with
    | zero =>
      rw [show setInList (v :: rest) 0 p w = setPath v p w :: rest by rw [setInList]]
      cases j with
      | zero => simp
      | succ j => simp
    | succ idx =>
      rw [show setInList (v :: rest) (idx + 1) p w = v :: setInList rest idx p w by
        rw [setInList]]
      cases j with
      | zero => simp
      | succ j =>
        rw [show (v :: setInList rest idx p w)[j + 1]? = (setInList rest idx p w)[j]? by
          simp]
        rw [ih]
        by_cases hj : j = idx
        · rw [if_pos hj, if_pos (by omega)]
          simp
        · rw [if_neg hj, if_neg (by omega)]
          simp

lemma getPath_setPath_of_indep :
    ∀ (p q : List Nat) (v w : Val), pathIndep p q →
      getPath (setPath v q w) p = getPath v p := by
  intro p
  induction p with
  | nil =>
    intro q v w h
    exact absurd (by simp) (h.1 q)
  | cons a p ih =>
    intro q v w h
    cases q with
    | nil => exact absurd (by simp) (h.2 (a :: p))
    | cons b q =>
      cases v with
      | prim n => rw [setPath_prim]
      | strukt fs =>
        rw [setPath_strukt, getPath_strukt, getPath_strukt]
        by_cases hab : a = b
        · subst hab
          rw [setInList_getElem?, if_pos rfl]
          cases hfa : fs[a]? with
          | none => rfl
          | some u =>
            rw [show (some u).map (fun v => setPath v q w) = some (setPath u q w) from rfl]
            exact ih q u w (pathIndep_cons_down h)
        · rw [setInList_getElem?, if_neg hab]

lemma applyScan_unchanged :
    ∀ (ts : List (Option (List Nat))) (vs : List Val) (dest : Val) (p : List Nat),
      (∀ tgt ∈ ts, ∀ pq, tgt = some pq → pathIndep p pq) →
      getPath (applyScan dest ts vs) p = getPath dest p := by
  intro ts
  induction ts with
  | nil =>
    intro vs dest p _
    rw [show applyScan dest [] vs = dest by rw [applyScan]]
  | cons t ts ih =>
    intro vs dest p h
    cases vs with
    | nil => rw [show applyScan dest (t :: ts) [] = dest by rw [applyScan]]
    | cons v vs =>
      cases t with
      | none =>
        rw [show applyScan dest (none :: ts) (v :: vs) = applyScan dest ts vs by
          rw [applyScan]]
        exact ih vs dest p (fun tgt htgt pq hpq => h tgt (List.mem_cons_of_mem _ htgt) pq hpq)
      | some pq =>
        rw [show applyScan dest (some pq :: ts) (v :: vs) =
            applyScan (setPath dest pq v) ts vs by rw [applyScan]]
        rw [ih vs _ p (fun tgt htgt pq2 hpq2 => h tgt (List.mem_cons_of_mem _ htgt) pq2 hpq2)]
        exact getPath_setPath_of_indep p pq dest v
          (h (some pq) (List.mem_cons_self _ _) pq rfl)

lemma buildTargets_length (nm : List Char → List Char) (fi : FieldInfo) :
    ∀ cols : List (List Char), (buildTargets nm fi cols).length = cols.length := by
  intro cols
  induction cols with
  | nil => rfl
  | cons c rest ih =>
    rw [show buildTargets nm fi (c :: rest) =
        fiLookup (nm c) fi :: buildTargets nm fi rest from rfl]
    simp [ih]

lemma buildTargets_getElem? (nm : List Char → List Char) (fi : FieldInfo) :
    ∀ (cols : List (List Char)) (j : Nat),
      (buildTargets nm fi cols)[j]? = (cols[j]?).map (fun c => fiLookup (nm c) fi) := by
  intro cols
  induction cols with
  | nil =>
    intro j
    rw [show buildTargets nm fi [] = [] from rfl]
    simp
  | cons c rest ih =>
    intro j
    rw [show buildTargets nm fi (c :: rest) =
        fiLookup (nm c) fi :: buildTargets nm fi rest from rfl]
    cases j with
    | zero => simp
    | succ j =>
      rw [show (fiLookup (nm c) fi :: buildTargets nm fi rest)[j + 1]? =
          (buildTargets nm fi rest)[j]? by simp]
      rw [ih]
      simp

lemma buildTargets_mem (nm : List Char → List Char) (fi : FieldInfo) :
    ∀ (cols : List (List Char)) (tgt : Option (List Nat)),
      tgt ∈ buildTargets nm fi cols → ∃ c ∈ cols, tgt = fiLookup (nm c) fi := by
  intro cols
  induction cols with
  | nil => intro tgt h; cases h
  | cons c rest ih =>
    intro tgt h
    rw [show buildTargets nm fi (c :: rest) =
        fiLookup (nm c) fi :: buildTargets nm fi rest from rfl] at h
    rcases List.mem_cons.mp h with h | h
    · exact ⟨c, List.mem_cons_self _ _, h⟩
    · obtain ⟨c2, hc2, ht⟩ := ih tgt h
      exact ⟨c2, List.mem_cons_of_mem _ hc2, ht⟩

/-- Claim C6: `doScan` builds exactly one scan target per reported cursor
column in positional order — the mapped field path when the name-mapped
column exists in the resolved metadata, the discard byte-sink otherwise —
and performs a single positional scan with that list; unmapped reported
columns cause no error, and any destination field whose column name is
absent from the cursor keeps its prior (zero) value. -/
theorem claim_C6_row_scanner (nm : List Char → List Char) (t : GoType)
    (cols : List (List Char)) (vals : List Val) (fs : List Val) :
    ((buildTargets nm (getFieldInfoPure nm true false t) cols).length = cols.length) ∧
    (∀ j : Nat, (buildTargets nm (getFieldInfoPure nm true false t) cols)[j]? =
      (cols[j]?).map (fun c => fiLookup (nm c) (getFieldInfoPure nm true false t))) ∧
    (doScan nm t (Val.strukt fs) cols vals =
      .ok (applyScan (Val.strukt fs)
        (buildTargets nm (getFieldInfoPure nm true false t) cols) vals)) ∧
    (∀ k p, fiLookup k (getFieldInfoPure nm true false t) = some p →
      (∀ c ∈ cols, nm c ≠ k) →
      getPath (applyScan (Val.strukt fs)
          (buildTargets nm (getFieldInfoPure nm true false t) cols) vals) p =
        getPath (Val.strukt fs) p) := by
  refine ⟨buildTargets_length nm _ cols, buildTargets_getElem? nm _ cols, rfl, ?_⟩
  intro k p hlook hnocol
  apply applyScan_unchanged
  intro tgt htgt pq hpq
  obtain ⟨c, hc, ht⟩ := buildTargets_mem nm _ cols tgt htgt
  rw [hpq] at ht
  exact pathIndep_symm (indep_of_lookups (getFieldInfoPure_indep nm true false t)
    ht.symm hlook (hnocol c hc))

theorem claim_C6_witness :
    ((buildTargets (fun s => s)
        (getFieldInfoPure (fun s => s) true false
          (GoType.mk "R".toList
            [GoField.mk "A".toList [] false false false none false,
             GoField.mk "E".toList [] false false false
               (some (GoType.mk "S".toList
                 [GoField.mk "X".toList [] false false false none false])) false]))
        ["A".toList, "Zed".toList]).length = 2) ∧
    (doScan (fun s => s)
      (GoType.mk "R".toList
        [GoField.mk "A".toList [] false false false none false,
         GoField.mk "E".toList [] false false false
           (some (GoType.mk "S".toList
             [GoField.mk "X".toList [] false false false none false])) false])
      (Val.strukt [Val.prim 0, Val.strukt [Val.prim 0]])
      ["A".toList, "Zed".toList] [Val.prim 7, Val.prim 9] =
      .ok (applyScan (Val.strukt [Val.prim 0, Val.strukt [Val.prim 0]])
        (buildTargets (fun s => s)
          (getFieldInfoPure (fun s => s) true false
            (GoType.mk "R".toList
              [GoField.mk "A".toList [] false false false none false,
               GoField.mk "E".toList [] false false false
                 (some (GoType.mk "S".toList
                   [GoField.mk "X".toList [] false false false none false])) false]))
          ["A".toList, "Zed".toList])
        [Val.prim 7, Val.prim 9])) ∧
    (getPath (applyScan (Val.strukt [Val.prim 0, Val.strukt [Val.prim 0]])
        (buildTargets (fun s => s)
          (getFieldInfoPure (fun s => s) true false
            (GoType.mk "R".toList
              [GoField.mk "A".toList [] false false false none false,
               GoField.mk "E".toList [] false false false
                 (some (GoType.mk "S".toList
                   [GoField.mk "X".toList [] false false false none false])) false]))
          ["A".toList, "Zed".toList])
        [Val.prim 7, Val.prim 9]) [1, 0] =
      getPath (Val.strukt [Val.prim 0, Val.strukt [Val.prim 0]]) [1, 0]) := by
  have h := claim_C6_row_scanner (fun s => s)
    (GoType.mk "R".toList
      [GoField.mk "A".toList [] false false false none false,
       GoField.mk "E".toList [] false false false
         (some (GoType.mk "S".toList
           [GoField.mk "X".toList [] false false false none false])) false])
    ["A".toList, "Zed".toList] [Val.prim 7, Val.prim 9]
    [Val.prim 0, Val.strukt [Val.prim 0]]
  refine ⟨h.1, h.2.2.1, ?_⟩
  exact h.2.2.2 "X".toList [1, 0] (by decide) (by decide)
